import Mathlib

/-!
astartectl: the datastream retrieval subsystem of `client/appengine.go`.

A shallow embedding of the tree flattener (`parsePropertiesMap`,
`parseDatastreamMap`, `parseDatastreamValue`) and of the bounded fetch loop
(`getDatastreamInternal`) together with the properties established about them.

Conventions of the embedding.

* Go `int` values are `Int`.  The only arithmetic in the embedded code adds and
  subtracts lengths of slices held in memory, which stays far inside the 64-bit
  range, so no wrap-around is modelled.
* A Go function that can return `(x, nil)`, `(zero, err)` or panic at run time
  returns a `Result`.
* A Go `map[string]T` is an association list; `mapIndex` reads it and
  `mapInsert` is the assignment `m[k] = v`.  A `for ... range` loop over a map
  visits the entries in the order in which the list stores them, so quantifying
  over all lists covers every iteration order the Go runtime may pick.
-/

namespace Astartectl

/-! ## Outcomes, instants, maps -/

/-- Outcome of a Go call: a normal return `(x, nil)`, a return `(zero value, err)` with a
non-nil `error` (for the flatteners `nil, err`: no mapping comes with the error), or a
run-time panic. -/
inductive Result (ε α : Type) where
  | ok (a : α)
  | error (e : ε)
  | panic
  deriving DecidableEq, Repr

/-- An instant (`time.Time`), given by its calendar reading in UTC. -/
structure Time where
  year : Nat
  month : Nat
  day : Nat
  hour : Nat
  minute : Nat
  second : Nat
  nanosecond : Nat
  deriving DecidableEq, Repr

/-- The zero value `time.Time{}`: January 1, year 1, 00:00:00 UTC. -/
def zeroTime : Time := ⟨1, 1, 1, 0, 0, 0, 0⟩

/-- Line 27: `var invalidTime time.Time = time.Unix(0, 0)`. -/
def invalidTime : Time := ⟨1970, 1, 1, 0, 0, 0, 0⟩

/-- Line 25: `const defaultPageSize int = 10000`. -/
def defaultPageSize : Int := 10000

/-- Order of a result set; `DescendingOrder` is the one `GetLastDatastreams` asks for. -/
inductive ResultSetOrder where
  | AscendingOrder
  | DescendingOrder
  deriving DecidableEq, Repr

/-! ## The paginator and the bounded fetch -/

/-- The fields that `getDatastreamPaginatorInternal` (lines 332-342) stores in a paginator.
`client` stands for the transport collaborator the pages come from; the base URL and the
bearer token only feed that collaborator and are left out. -/
structure DatastreamPaginator (κ : Type) where
  windowStart : Time
  windowEnd : Time
  nextWindow : Time
  pageSize : Int
  client : κ
  hasNextPage : Bool
  resultSetOrder : ResultSetOrder

/-- The receiver of the service methods: the collaborator handle it carries. -/
structure AppEngineService (κ : Type) where
  client : κ

/-- Modelled from the spec: `HasNextPage` of the paginator, whose code is not among the
sources; section 4.2 describes it as a "pure state read" of the `hasNextPage` field. -/
def DatastreamPaginator.HasNextPage {κ : Type} (p : DatastreamPaginator κ) : Bool :=
  p.hasNextPage

/-- Lines 327-344: the paginator starts with `nextWindow = invalidTime` and
`hasNextPage = true`. -/
def getDatastreamPaginatorInternal {κ : Type} (s : AppEngineService κ) (since toTime : Time)
    (pageSize : Int) (resultSetOrder : ResultSetOrder) : DatastreamPaginator κ :=
  DatastreamPaginator.mk since toTime invalidTime pageSize s.client true resultSetOrder

/-- The slice expression `page[0:h]`: a run-time panic (`none`) unless `0 ≤ h ≤ len(page)`.
The capacity of `page` is taken to be its length. -/
def sliceTo {α : Type} (page : List α) (h : Int) : Option (List α) :=
  if 0 ≤ h ∧ h ≤ (page.length : Int) then some (page.take h.toNat) else none

/-- Lines 304-322: the loop `for ok := true; ok; ok = datastreamPaginator.HasNextPage()`.
One unit of fuel is one execution of the loop body; `none` means the fuel ran out.  The two
returns of lines 313-318 sit inside `if limit > 0`, so each of their conditions carries that
test; every other path appends the page and evaluates the loop condition.
`GetNextPage` is the paginator method, passed in because its code is not among the sources;
it returns the page (or the error) and the paginator state it leaves behind.  The final
paginator state is returned next to the outcome so that the number of fetches can be read
off it. -/
def getDatastreamLoop {κ ε α : Type}
    (GetNextPage : DatastreamPaginator κ → Except ε (List α) × DatastreamPaginator κ)
    (limit : Int) :
    Nat → List α → DatastreamPaginator κ →
      Option (Result ε (List α) × DatastreamPaginator κ)
  | 0, _, _ => none
  | fuel + 1, resultSet, datastreamPaginator =>
    match GetNextPage datastreamPaginator with
    | (Except.error err, p) => some (Result.error err, p)
    | (Except.ok page, p) =>
      let totalSize : Int := (resultSet.length : Int) + (page.length : Int)
      if limit > 0 ∧ totalSize = limit then
        some (Result.ok (resultSet ++ page), p)
      else if limit > 0 ∧ totalSize > limit then
        let missingSamples : Int := limit - (resultSet.length : Int)
        match sliceTo page (missingSamples - 1) with
        | some front => some (Result.ok (resultSet ++ front), p)
        | none => some (Result.panic, p)
      else if p.HasNextPage then
        getDatastreamLoop GetNextPage limit fuel (resultSet ++ page) p
      else
        some (Result.ok (resultSet ++ page), p)

/-- Lines 297-301: the paginator that `getDatastreamInternal` builds before it enters
the loop, with the page size `realLimit`. -/
def getDatastreamInternalPaginator {κ : Type} (s : AppEngineService κ) (since toTime : Time)
    (limit : Int) (resultSetOrder : ResultSetOrder) : DatastreamPaginator κ :=
  let realLimit : Int := if limit < 0 ∨ limit > defaultPageSize then defaultPageSize else limit
  getDatastreamPaginatorInternal s since toTime realLimit resultSetOrder

/-- Lines 295-325: `getDatastreamInternal`. -/
def getDatastreamInternal {κ ε α : Type}
    (GetNextPage : DatastreamPaginator κ → Except ε (List α) × DatastreamPaginator κ)
    (fuel : Nat) (s : AppEngineService κ) (since toTime : Time) (limit : Int)
    (resultSetOrder : ResultSetOrder) :
    Option (Result ε (List α) × DatastreamPaginator κ) :=
  getDatastreamLoop GetNextPage limit fuel []
    (getDatastreamInternalPaginator s since toTime limit resultSetOrder)

/-- Lines 214-216: `GetLastDatastreams`. -/
def GetLastDatastreams {κ ε α : Type}
    (GetNextPage : DatastreamPaginator κ → Except ε (List α) × DatastreamPaginator κ)
    (fuel : Nat) (s : AppEngineService κ) (limit : Int) :
    Option (Result ε (List α) × DatastreamPaginator κ) :=
  getDatastreamInternal GetNextPage fuel s invalidTime invalidTime limit
    ResultSetOrder.DescendingOrder

/-- Modelled from the spec: `GetNextPage` of an abstract page source.  The collaborator is a
script of the responses still to be delivered; a fetch hands out the next one, and
`HasNextPage` stays true until the script is used up.  A failed fetch leaves the state
unmodified (section 4.2), and a fetch on an exhausted source is a no-op that returns an
empty page (section 8). -/
def scriptedGetNextPage {ε α : Type} (p : DatastreamPaginator (List (Except ε (List α)))) :
    Except ε (List α) × DatastreamPaginator (List (Except ε (List α))) :=
  match p.client with
  | [] =>
    (Except.ok [], DatastreamPaginator.mk p.windowStart p.windowEnd p.nextWindow p.pageSize
      [] false p.resultSetOrder)
  | Except.error err :: _ => (Except.error err, p)
  | Except.ok page :: rest =>
    (Except.ok page, DatastreamPaginator.mk p.windowStart p.windowEnd p.nextWindow p.pageSize
      rest (!rest.isEmpty) p.resultSetOrder)

/-- A page source that delivers the given pages, one per fetch, without error. -/
def pageSource {α : Type} (pages : List (List α)) :
    AppEngineService (List (Except String (List α))) :=
  AppEngineService.mk (pages.map Except.ok)

/-- The outcome of `GetLastDatastreams` against `pageSource pages`, with fuel for one loop
iteration more than there are pages. -/
def lastDatastreamsOf {α : Type} (limit : Int) (pages : List (List α)) :
    Option (Result String (List α)) :=
  (GetLastDatastreams scriptedGetNextPage (pages.length + 1) (pageSource pages) limit).map
    Prod.fst

/-- Number of fetches still unserved when `GetLastDatastreams` returns. -/
def pagesLeftOf {α : Type} (limit : Int) (pages : List (List α)) : Option Nat :=
  (GetLastDatastreams scriptedGetNextPage (pages.length + 1) (pageSource pages) limit).map
    (fun r => r.2.client.length)

/-! ## Go values and maps -/

/-- A Go value of type `interface{}` as the flattener can meet it: what `encoding/json`
decodes into (`nil`, `bool`, `float64`, `string`, `[]interface{}`,
`map[string]interface{}`) and the native instant `time.Time`.  A number is kept as the
decimal literal `mantissa * 10 ^ exponent` it was decoded from; the flattener only passes
numbers through.  `null` is the nil interface, which is also what a JSON `null` decodes to. -/
inductive Any where
  | null
  | bool (b : Bool)
  | number (mantissa : Int) (exponent : Int)
  | str (s : String)
  | time (t : Time)
  | array (items : List Any)
  | object (fields : List (String × Any))

/-- The assignment `m[k] = v`: overwrite the entry of `k`, or add one. -/
def mapInsert {β : Type} (m : List (String × β)) (k : String) (v : β) : List (String × β) :=
  match m with
  | [] => [(k, v)]
  | (k0, v0) :: rest => if k0 = k then (k, v) :: rest else (k0, v0) :: mapInsert rest k v

/-- The entry of `k` in a map, if there is one. -/
def mapLookup {β : Type} (m : List (String × β)) (k : String) : Option β :=
  match m with
  | [] => none
  | (k0, v0) :: rest => if k0 = k then some v0 else mapLookup rest k

/-- The test `_, ok := aMap[k]`. -/
def mapHasKey {β : Type} (m : List (String × β)) (k : String) : Bool :=
  (mapLookup m k).isSome

/-- The index expression `aMap[k]` on a `map[string]interface{}`: the nil interface when
the key is absent. -/
def mapIndex (m : List (String × Any)) (k : String) : Any :=
  (mapLookup m k).getD Any.null

/-- The loop `for k, v := range src { m[k] = v }`. -/
def mapMerge {β : Type} (m src : List (String × β)) : List (String × β) :=
  src.foldl (fun acc kv => mapInsert acc kv.1 kv.2) m

/-! ## Flattening of properties -/

mutual
/-- Lines 107-122: `parsePropertiesMap`, applied to an object value (the argument of a
recursive call is `val.(map[string]interface{})`).  The function is never called on
anything but an object; the embedding answers the empty map there. -/
def parsePropertiesMap (aMap : Any) (completeKeyPath : String) : List (String × Any) :=
  match aMap with
  | Any.object fields => parsePropertiesLoop fields completeKeyPath []
  | _ => []
termination_by structural aMap
/-- Lines 110-119: the `for key, val := range aMap` loop of `parsePropertiesMap`, with the
entries still to visit and the map `m` built so far. -/
def parsePropertiesLoop (entries : List (String × Any)) (completeKeyPath : String)
    (m : List (String × Any)) : List (String × Any) :=
  match entries with
  | [] => m
  | (key, val) :: rest =>
    match val with
    | Any.object _ =>
      parsePropertiesLoop rest completeKeyPath
        (mapMerge m (parsePropertiesMap val (completeKeyPath ++ "/" ++ key)))
    | actualVal =>
      parsePropertiesLoop rest completeKeyPath
        (mapInsert m (completeKeyPath ++ "/" ++ key) actualVal)
termination_by structural entries
end

/-- Lines 92-95: `parsePropertyInterface`. -/
def parsePropertyInterface (interfaceMap : List (String × Any)) : List (String × Any) :=
  parsePropertiesMap (Any.object interfaceMap) ""

/-! ## Flattening of a datastream snapshot -/

/-- The struct `DatastreamValue`, with the three fields that lines 157-168 fill in. -/
structure DatastreamValue where
  Value : Any
  Timestamp : Time
  ReceptionTimestamp : Time

/-- The call `time.Parse(time.RFC3339Nano, s)` as Go returns it: the instant and a nil
error, or the zero instant and the error.  The layout parser itself belongs to the Go
standard library and is the parameter `timeParse`. -/
def timeParseGo (timeParse : String → Except String Time) (s : String) :
    Time × Option String :=
  match timeParse s with
  | Except.ok t => (t, none)
  | Except.error err => (zeroTime, some err)

/-- Lines 153-172: `parseDatastreamValue`.  The one-result type assertions
`aMap["reception_timestamp"].(time.Time)` and `aMap["reception_timestamp"].(string)` panic
when the field has another dynamic type or is absent.  In the string case the error of the
second `time.Parse` is discarded (`receptionTimestamp, _ :=`) and the test that follows
looks at the error of the first one again, which is nil there. -/
def parseDatastreamValue (timeParse : String → Except String Time)
    (aMap : List (String × Any)) : Result String DatastreamValue :=
  match mapIndex aMap "timestamp" with
  | Any.time timestamp =>
    match mapIndex aMap "reception_timestamp" with
    | Any.time receptionTimestamp =>
      Result.ok (DatastreamValue.mk (mapIndex aMap "value") timestamp receptionTimestamp)
    | _ => Result.panic
  | Any.str ts =>
    match timeParseGo timeParse ts with
    | (_, some err) => Result.error err
    | (timestamp, none) =>
      match mapIndex aMap "reception_timestamp" with
      | Any.str rts =>
        let receptionTimestamp := (timeParseGo timeParse rts).1
        Result.ok (DatastreamValue.mk (mapIndex aMap "value") timestamp receptionTimestamp)
      | _ => Result.panic
  | _ => Result.error "Unable to parse Datastream"

mutual
/-- Lines 124-151: `parseDatastreamMap`, applied to an object value (the argument of a
recursive call is `val.(map[string]interface{})`).  The function is never called on
anything but an object; the embedding answers the empty map there. -/
def parseDatastreamMap (timeParse : String → Except String Time) (aMap : Any)
    (completeKeyPath : String) : Result String (List (String × DatastreamValue)) :=
  match aMap with
  | Any.object fields =>
    if mapHasKey fields "value" then
      match parseDatastreamValue timeParse fields with
      | Result.ok datastreamValue => Result.ok (mapInsert [] completeKeyPath datastreamValue)
      | Result.error err => Result.error err
      | Result.panic => Result.panic
    else
      parseDatastreamLoop timeParse fields completeKeyPath []
  | _ => Result.ok []
termination_by structural aMap
/-- Lines 137-148: the `for key, val := range aMap` loop of `parseDatastreamMap`, with the
entries still to visit and the map `m` built so far. -/
def parseDatastreamLoop (timeParse : String → Except String Time)
    (entries : List (String × Any)) (completeKeyPath : String)
    (m : List (String × DatastreamValue)) : Result String (List (String × DatastreamValue)) :=
  match entries with
  | [] => Result.ok m
  | (key, val) :: rest =>
    match val with
    | Any.object _ =>
      match parseDatastreamMap timeParse val (completeKeyPath ++ "/" ++ key) with
      | Result.ok parsedMap =>
        parseDatastreamLoop timeParse rest completeKeyPath (mapMerge m parsedMap)
      | Result.error err => Result.error err
      | Result.panic => Result.panic
    | _ => parseDatastreamLoop timeParse rest completeKeyPath m
termination_by structural entries
end

/-- Lines 97-100: `parseDatastreamInterface`. -/
def parseDatastreamInterface (timeParse : String → Except String Time)
    (interfaceMap : List (String × Any)) : Result String (List (String × DatastreamValue)) :=
  parseDatastreamMap timeParse (Any.object interfaceMap) ""

/-! ## Vocabulary of the statements -/

/-- The key that the flattener reaches below `completeKeyPath` after descending along
`path`: every step appends `"/"` and the key, as `completeKeyPath+"/"+key` does. -/
def pathFrom (completeKeyPath : String) (path : List String) : String :=
  path.foldl (fun acc key => acc ++ "/" ++ key) completeKeyPath

/-- The flattened path of a leaf in the words of the specification: `"/"` followed by the
keys on the path from the root, joined with `"/"`. -/
def flatKey (path : List String) : String :=
  "/" ++ "/".intercalate path

mutual
/-- The leaves below a value, each with the list of keys leading to it: a value that is not
an object is a leaf, `null` and arrays included. -/
def leavesOf (val : Any) : List (List String × Any) :=
  match val with
  | Any.object fields => leavesOfFields fields
  | leaf => [([], leaf)]
termination_by structural val
/-- The leaves below the fields of an object, field by field. -/
def leavesOfFields (fields : List (String × Any)) : List (List String × Any) :=
  match fields with
  | [] => []
  | (key, val) :: rest =>
    (leavesOf val).map (fun e => (key :: e.1, e.2)) ++ leavesOfFields rest
termination_by structural fields
end

/-- The entries that the leaves below `val` should give under the prefix `completeKeyPath`. -/
def leafEntries (completeKeyPath : String) (val : Any) : List (String × Any) :=
  (leavesOf val).map (fun e => (pathFrom completeKeyPath e.1, e.2))

/-- The keys of a map. -/
def mapKeys {β : Type} (m : List (String × β)) : List String :=
  m.map Prod.fst

/-- A string begins with `"/"`. -/
def beginsWithSlash (s : String) : Prop :=
  s.data.head? = some '/'

instance (s : String) : Decidable (beginsWithSlash s) :=
  inferInstanceAs (Decidable (s.data.head? = some '/'))

/-- The pieces of a string between its `"/"` characters, as `strings.Split(s, "/")` returns
them (on lists of characters). -/
def splitSlash (cs : List Char) : List (List Char) :=
  match cs with
  | [] => [[]]
  | c :: more =>
    if c = '/' then [] :: splitSlash more
    else
      match splitSlash more with
      | [] => [[c]]
      | seg :: segs => (c :: seg) :: segs

/-- The segments of a flattened path: the pieces between the `"/"` characters, without the
empty piece in front of the leading `"/"`. -/
def segments (key : String) : List String :=
  ((splitSlash key.data).map String.mk).tail

/-- Place the value `v` in a tree at the end of the path `path`, nesting objects along the
segments: an intermediate segment leads into the object already stored under it, or into a
new one. -/
def insertAt (fields : List (String × Any)) (path : List String) (v : Any) :
    List (String × Any) :=
  match path with
  | [] => fields
  | seg :: more =>
    match more with
    | [] => mapInsert fields seg v
    | _ :: _ =>
      mapInsert fields seg
        (Any.object
          (insertAt
            (match mapLookup fields seg with
              | some (Any.object inner) => inner
              | _ => [])
            more v))

/-- Rebuilding a tree from a flattened mapping, in the words of the specification: split
each key on `"/"` and nest objects along the segments. -/
def rebuild (entries : List (String × Any)) : List (String × Any) :=
  entries.foldl (fun tree e => insertAt tree (segments e.1) e.2) []

mutual
/-- A value that survives the round trip through flattening: below it no key contains
`"/"`, the keys of every object are pairwise distinct (as in any Go map), and no nested
object is empty. -/
def splitSafe (val : Any) : Bool :=
  match val with
  | Any.object fields => !fields.isEmpty && splitSafeFields fields
  | _ => true
termination_by structural val
/-- The fields of an object survive the round trip through flattening. -/
def splitSafeFields (fields : List (String × Any)) : Bool :=
  match fields with
  | [] => true
  | (key, val) :: rest =>
    !key.data.contains '/' && !(mapKeys rest).contains key && splitSafe val &&
      splitSafeFields rest
termination_by structural fields
end

mutual
/-- The terminal samples below a value, each with the list of keys leading to it: the
outermost objects that have a `"value"` key.  Nothing inside a terminal sample, and nothing
that is not an object, is looked into. -/
def samplesOf (val : Any) : List (List String × List (String × Any)) :=
  match val with
  | Any.object fields =>
    if mapHasKey fields "value" then [([], fields)] else samplesOfFields fields
  | _ => []
termination_by structural val
/-- The terminal samples below the fields of an object, field by field. -/
def samplesOfFields (fields : List (String × Any)) :
    List (List String × List (String × Any)) :=
  match fields with
  | [] => []
  | (key, val) :: rest =>
    (samplesOf val).map (fun e => (key :: e.1, e.2)) ++ samplesOfFields rest
termination_by structural fields
end

/-- A terminal sample whose two timestamps have dynamic types that `parseDatastreamValue`
handles: both native instants, or both strings with a `timestamp` that `timeParse` accepts. -/
def wellTimed (timeParse : String → Except String Time) (sample : List (String × Any)) :
    Bool :=
  match mapIndex sample "timestamp", mapIndex sample "reception_timestamp" with
  | Any.time _, Any.time _ => true
  | Any.str ts, Any.str _ =>
    match timeParse ts with
    | Except.ok _ => true
    | Except.error _ => false
  | _, _ => false

/-- A terminal sample whose `timestamp` is absent, is neither a native instant nor a
string, or is a string that `timeParse` rejects. -/
def badTimestamp (timeParse : String → Except String Time) (sample : List (String × Any)) :
    Bool :=
  match mapIndex sample "timestamp" with
  | Any.time _ => false
  | Any.str ts =>
    match timeParse ts with
    | Except.ok _ => false
    | Except.error _ => true
  | _ => true

/-! ## A parser of UTC timestamps, to instantiate `timeParse` -/

/-- The value of a decimal digit. -/
def digitValue (c : Char) : Option Nat :=
  if 48 ≤ c.toNat ∧ c.toNat ≤ 57 then some (c.toNat - 48) else none

/-- The value of a run of decimal digits. -/
def digitsValue (cs : List Char) : Option Nat :=
  cs.foldl
    (fun acc c =>
      match acc, digitValue c with
      | some n, some d => some (10 * n + d)
      | _, _ => none)
    (some 0)

/-- The number of days of a month in the proleptic Gregorian calendar. -/
def daysIn (year month : Nat) : Nat :=
  if month = 2 then
    if year % 4 = 0 ∧ (year % 100 ≠ 0 ∨ year % 400 = 0) then 29 else 28
  else if month = 4 ∨ month = 6 ∨ month = 9 ∨ month = 11 then 30
  else 31

/-- The nanoseconds denoted by what follows the seconds: `Z`, or `.` and one to nine digits
and `Z`. -/
def fractionZ (cs : List Char) : Option Nat :=
  match cs with
  | ['Z'] => some 0
  | '.' :: more =>
    match more.reverse with
    | 'Z' :: rev =>
      if 1 ≤ rev.length ∧ rev.length ≤ 9 then
        (digitsValue rev.reverse).map (fun n => n * 10 ^ (9 - rev.length))
      else none
    | _ => none
  | _ => none

/-- A parser for the timestamps of the form `YYYY-MM-DDTHH:MM:SS[.fraction]Z`, the UTC part
of the layout `time.RFC3339Nano`. -/
def parseUTC (s : String) : Except String Time :=
  match s.data with
  | y1 :: y2 :: y3 :: y4 :: '-' :: m1 :: m2 :: '-' :: d1 :: d2 :: 'T' :: h1 :: h2 :: ':' ::
      n1 :: n2 :: ':' :: s1 :: s2 :: rest =>
    match digitsValue [y1, y2, y3, y4], digitsValue [m1, m2], digitsValue [d1, d2],
      digitsValue [h1, h2], digitsValue [n1, n2], digitsValue [s1, s2], fractionZ rest with
    | some year, some month, some day, some hour, some minute, some second, some nano =>
      if 1 ≤ month ∧ month ≤ 12 ∧ 1 ≤ day ∧ day ≤ daysIn year month ∧ hour ≤ 23 ∧
          minute ≤ 59 ∧ second ≤ 59 then
        Except.ok (Time.mk year month day hour minute second nano)
      else Except.error ("parsing time " ++ s ++ ": out of range")
    | _, _, _, _, _, _, _ => Except.error ("parsing time " ++ s ++ ": malformed")
  | _ => Except.error ("parsing time " ++ s ++ ": malformed")

/-- Place a list of leaves, each given by its path and value, in a tree one after the
other. -/
def placeAll (tree : List (String × Any)) (leaves : List (List String × Any)) :
    List (String × Any) :=
  leaves.foldl (fun t e => insertAt t e.1 e.2) tree

/-- What the round trip needs to know about the leaves below the fields of an object: no key
on a path contains `"/"`, the paths are pairwise distinct, there is a leaf unless there is no
field, and placing the leaves in a tree `done` that has none of the keys of the fields adds
the fields to it. -/
def LeavesRebuild (fields : List (String × Any)) : Prop :=
  (∀ e ∈ leavesOfFields fields, ∀ k ∈ e.1, '/' ∉ k.data) ∧
  ((leavesOfFields fields).map Prod.fst).Nodup ∧
  (fields ≠ [] → leavesOfFields fields ≠ []) ∧
  (∀ done : List (String × Any), (∀ k ∈ mapKeys fields, k ∉ mapKeys done) →
    placeAll done (leavesOfFields fields) = done ++ fields)

/-- The instant that a timestamp field stands for: a native instant is itself, a string is
what `time.Parse` returns for it (the zero instant when it does not parse), anything else
is the zero instant. -/
def instantOf (timeParse : String → Except String Time) (field : Any) : Time :=
  match field with
  | Any.time t => t
  | Any.str s => (timeParseGo timeParse s).1
  | _ => zeroTime

/-- The `DatastreamValue` that a terminal sample stands for: its `value` field and the
instants of its `timestamp` and `reception_timestamp` fields. -/
def sampleOf (timeParse : String → Except String Time) (sample : List (String × Any)) :
    DatastreamValue :=
  DatastreamValue.mk (mapIndex sample "value")
    (instantOf timeParse (mapIndex sample "timestamp"))
    (instantOf timeParse (mapIndex sample "reception_timestamp"))

/-- The entries that the terminal samples below `val` should give under the prefix
`completeKeyPath`. -/
def sampleEntries (timeParse : String → Except String Time) (completeKeyPath : String)
    (val : Any) : List (String × DatastreamValue) :=
  (samplesOf val).map (fun e => (pathFrom completeKeyPath e.1, sampleOf timeParse e.2))

/-! ## Vocabulary of the statements about the bounded fetch -/

/-- A paginator method that also counts its calls: the collaborator carries, next to its
own state, the number of `GetNextPage` calls made so far. -/
def countingGetNextPage {κ ε α : Type}
    (GetNextPage : DatastreamPaginator κ → Except ε (List α) × DatastreamPaginator κ)
    (p : DatastreamPaginator (κ × Nat)) :
    Except ε (List α) × DatastreamPaginator (κ × Nat) :=
  match GetNextPage (DatastreamPaginator.mk p.windowStart p.windowEnd p.nextWindow p.pageSize
      p.client.1 p.hasNextPage p.resultSetOrder) with
  | (r, q) =>
    (r, DatastreamPaginator.mk q.windowStart q.windowEnd q.nextWindow q.pageSize
      (q.client, p.client.2 + 1) q.hasNextPage q.resultSetOrder)

/-- Starting in the state `p`, successive `GetNextPage` calls deliver the pages `pages`
without error; `HasNextPage` is true after every page but the last and false after the
last, which leaves the paginator in the state `q`. -/
inductive FetchesAll {κ ε α : Type}
    (GetNextPage : DatastreamPaginator κ → Except ε (List α) × DatastreamPaginator κ) :
    DatastreamPaginator κ → List (List α) → DatastreamPaginator κ → Prop where
  | last (p q : DatastreamPaginator κ) (page : List α)
      (hfetch : GetNextPage p = (Except.ok page, q)) (hdone : q.HasNextPage = false) :
      FetchesAll GetNextPage p [page] q
  | more (p p1 q : DatastreamPaginator κ) (page : List α) (pages : List (List α))
      (hfetch : GetNextPage p = (Except.ok page, p1)) (hmore : p1.HasNextPage = true)
      (hrest : FetchesAll GetNextPage p1 pages q) :
      FetchesAll GetNextPage p (page :: pages) q

/-! # Properties -/

/-! ## The bounded fetch -/

/-- With a positive limit the loop keeps the accumulated result strictly below the limit
between iterations, so whatever it returns normally has at most `limit` elements. -/
theorem getDatastreamLoop_length_le {κ ε α : Type}
    (GetNextPage : DatastreamPaginator κ → Except ε (List α) × DatastreamPaginator κ)
    (limit : Int) (hlimit : 0 < limit) :
    ∀ (fuel : Nat) (resultSet : List α) (p : DatastreamPaginator κ) (rs : List α)
      (q : DatastreamPaginator κ), (resultSet.length : Int) < limit →
      getDatastreamLoop GetNextPage limit fuel resultSet p = some (Result.ok rs, q) →
      (rs.length : Int) ≤ limit := by
  intro fuel
  induction fuel with
  | zero => intro resultSet p rs q _ h; simp [getDatastreamLoop] at h
  | succ fuel ih =>
    intro resultSet p rs q hlt h
    unfold getDatastreamLoop at h
    rcases hfetch : GetNextPage p with ⟨r, p1⟩
    rw [hfetch] at h
    cases r with
    | error err => simp at h
    | ok page =>
      simp only at h
      split_ifs at h with h1 h2 h3
      · simp only [Option.some.injEq, Prod.mk.injEq, Result.ok.injEq] at h
        rw [← h.1, List.length_append]
        push_cast
        omega
      · cases hs : sliceTo page (limit - (resultSet.length : Int) - 1) with
        | none => rw [hs] at h; simp at h
        | some front =>
          rw [hs] at h
          simp only [Option.some.injEq, Prod.mk.injEq, Result.ok.injEq] at h
          unfold sliceTo at hs
          split_ifs at hs with hb
          simp only [Option.some.injEq] at hs
          rw [← h.1, List.length_append, ← hs, List.length_take]
          push_cast
          omega
      · apply ih (resultSet ++ page) p1 rs q _ h
        rw [List.length_append]
        push_cast
        omega
      · simp only [Option.some.injEq, Prod.mk.injEq, Result.ok.injEq] at h
        rw [← h.1, List.length_append]
        push_cast
        omega

/-- Against a scripted page source the loop returns as soon as the fuel exceeds the number
of responses still to be delivered. -/
theorem getDatastreamLoop_scripted_isSome {ε α : Type} (limit : Int) :
    ∀ (fuel : Nat) (resultSet : List α) (p : DatastreamPaginator (List (Except ε (List α)))),
      p.client.length < fuel →
      ∃ out, getDatastreamLoop scriptedGetNextPage limit fuel resultSet p = some out := by
  intro fuel
  induction fuel with
  | zero => intro resultSet p h; omega
  | succ fuel ih =>
    intro resultSet p hfuel
    unfold getDatastreamLoop
    rcases p with ⟨ws, we, nw, ps, script, hnp, ord⟩
    cases script with
    | nil =>
      simp [scriptedGetNextPage, DatastreamPaginator.HasNextPage]
      split_ifs <;> first | exact ⟨_, _, rfl⟩ | (split <;> exact ⟨_, _, rfl⟩)
    | cons r rest =>
      cases r with
      | error err => exact ⟨_, rfl⟩
      | ok page =>
        simp only [scriptedGetNextPage, DatastreamPaginator.HasNextPage]
        split_ifs with h1 h2 h3
        · exact ⟨_, rfl⟩
        · split <;> exact ⟨_, rfl⟩
        · apply ih
          simp only [List.length_cons] at hfuel
          simp only
          omega
        · exact ⟨_, rfl⟩

/-- C2: for every positive limit a successful `getDatastreamInternal` call (hence a successful
`GetLastDatastreams` call) returns at most `limit` samples.  First part: this holds for any
paginator behaviour and any number of loop iterations.  Second part: against every scripted
sequence of responses the call does return, within one iteration more than there are
responses, and a normal return then carries at most `limit` samples. -/
theorem getDatastreamInternal_at_most_limit {α : Type} (limit : Int) (hlimit : 0 < limit) :
    (∀ (κ ε : Type)
        (GetNextPage : DatastreamPaginator κ → Except ε (List α) × DatastreamPaginator κ)
        (fuel : Nat) (s : AppEngineService κ) (since toTime : Time) (order : ResultSetOrder)
        (rs : List α) (q : DatastreamPaginator κ),
        getDatastreamInternal GetNextPage fuel s since toTime limit order
            = some (Result.ok rs, q) →
          (rs.length : Int) ≤ limit) ∧
    (∀ (script : List (Except String (List α))) (since toTime : Time) (order : ResultSetOrder),
        ∃ out, getDatastreamInternal scriptedGetNextPage (script.length + 1)
            (AppEngineService.mk script) since toTime limit order = some out ∧
          ∀ rs, out.1 = Result.ok rs → (rs.length : Int) ≤ limit) := by
  constructor
  · intro κ ε GetNextPage fuel s since toTime order rs q h
    exact getDatastreamLoop_length_le GetNextPage limit hlimit fuel [] _ rs q
      (by simpa using hlimit) h
  · intro script since toTime order
    obtain ⟨out, hout⟩ := getDatastreamLoop_scripted_isSome limit (script.length + 1)
      ([] : List α) (getDatastreamInternalPaginator (AppEngineService.mk script) since toTime
        limit order) (by simp [getDatastreamInternalPaginator, getDatastreamPaginatorInternal])
    refine ⟨out, hout, ?_⟩
    intro rs hrs
    rcases out with ⟨r, q⟩
    simp only at hrs
    subst hrs
    exact getDatastreamLoop_length_le scriptedGetNextPage limit hlimit _ [] _ rs q
      (by simpa using hlimit) hout

/-- Witness of C2: limit 5 against pages of three samples. -/
theorem getDatastreamInternal_at_most_limit_witness :
    (0 : Int) < 5 ∧
    ∃ out, getDatastreamInternal scriptedGetNextPage 3
        (AppEngineService.mk
          ([Except.ok [1, 2, 3], Except.ok [4, 5, 6]] : List (Except String (List Nat))))
        invalidTime invalidTime 5 ResultSetOrder.DescendingOrder = some out ∧
      ∀ rs : List Nat, out.1 = Result.ok rs → (rs.length : Int) ≤ 5 :=
  ⟨by decide,
    (getDatastreamInternal_at_most_limit 5 (by decide)).2
      [Except.ok [1, 2, 3], Except.ok [4, 5, 6]] invalidTime invalidTime
      ResultSetOrder.DescendingOrder⟩

/-- C1 (the code falls one short): with `limit = 5` and pages of three samples the second
page takes the accumulated count past the limit, and the truncating slice
`page[0:missingSamples-1]` keeps one sample of it instead of two: the call returns the four
samples `1, 2, 3, 4`, while the first five samples of the concatenated pages are
`1, 2, 3, 4, 5`.  Two pages have been fetched at that point. -/
theorem getDatastreamInternal_truncates_one_short :
    lastDatastreamsOf 5 [[1, 2, 3], [4, 5, 6]] = some (Result.ok [1, 2, 3, 4]) ∧
    ([[1, 2, 3], [4, 5, 6]] : List (List Nat)).flatten.take 5 = [1, 2, 3, 4, 5] ∧
    pagesLeftOf 5 [[1, 2, 3], [4, 5, 6], [7, 8, 9]] = some 1 := by
  decide

/-- C3 (limit 0 is not clamped): the guard `limit < 0 || limit > defaultPageSize` lets
`limit = 0` through, so the paginator is built with page size 0, not 10000.  Positive limits
up to 10000 are passed on as they are, larger and negative ones become 10000. -/
theorem getDatastreamInternal_pageSize_at_zero {κ : Type} (s : AppEngineService κ)
    (since toTime : Time) (order : ResultSetOrder) :
    (getDatastreamInternalPaginator s since toTime 0 order).pageSize = 0 ∧
    defaultPageSize = 10000 ∧
    (getDatastreamInternalPaginator s since toTime 5 order).pageSize = 5 ∧
    (getDatastreamInternalPaginator s since toTime 10000 order).pageSize = 10000 ∧
    (getDatastreamInternalPaginator s since toTime 10001 order).pageSize = 10000 ∧
    (getDatastreamInternalPaginator s since toTime (-1) order).pageSize = 10000 := by
  simp [getDatastreamInternalPaginator, getDatastreamPaginatorInternal, defaultPageSize]

/-! ## Maps -/

theorem mapInsert_fresh {β : Type} (m : List (String × β)) (k : String) (v : β)
    (h : k ∉ mapKeys m) : mapInsert m k v = m ++ [(k, v)] := by
  induction m with
  | nil => rfl
  | cons e rest ih =>
    rcases e with ⟨k0, v0⟩
    simp only [mapKeys, List.map_cons, List.mem_cons, not_or] at h
    have hne : ¬ k0 = k := fun hk => h.1 hk.symm
    simp only [mapInsert, hne, if_false, List.cons_append]
    rw [ih h.2]

theorem mapMerge_fresh {β : Type} (src m : List (String × β))
    (h : (mapKeys (m ++ src)).Nodup) : mapMerge m src = m ++ src := by
  induction src generalizing m with
  | nil => simp [mapMerge]
  | cons e rest ih =>
    rcases e with ⟨k, v⟩
    have hk : k ∉ mapKeys m := by
      simp only [mapKeys, List.map_append, List.map_cons] at h
      have := (List.nodup_append.1 h).2.2
      intro hmem
      exact this hmem (List.mem_cons_self _ _)
    have h2 : (mapKeys ((m ++ [(k, v)]) ++ rest)).Nodup := by
      simpa [mapKeys] using h
    have := ih (m ++ [(k, v)]) h2
    simp only [mapMerge, List.foldl_cons] at this ⊢
    rw [mapInsert_fresh m k v hk, this]
    simp

/-! ## Flattening of properties -/

theorem leavesOfFields_cons_entries (key : String) (val : Any) (rest : List (String × Any))
    (path : String) :
    (leavesOfFields ((key, val) :: rest)).map (fun e => (pathFrom path e.1, e.2)) =
      leafEntries (path ++ "/" ++ key) val ++
        (leavesOfFields rest).map (fun e => (pathFrom path e.1, e.2)) := by
  simp [leavesOfFields, leafEntries, pathFrom, List.map_map, Function.comp]

theorem leafEntries_of_not_object (path : String) (val : Any)
    (h : ∀ fields, val ≠ Any.object fields) : leafEntries path val = [(path, val)] := by
  cases val <;> first | rfl | exact absurd rfl (h _)

theorem parsePropertiesLoop_cons_leaf (key : String) (val : Any) (rest : List (String × Any))
    (path : String) (m : List (String × Any)) (h : ∀ fields, val ≠ Any.object fields) :
    parsePropertiesLoop ((key, val) :: rest) path m =
      parsePropertiesLoop rest path (mapInsert m (path ++ "/" ++ key) val) := by
  cases val <;> first | rfl | exact absurd rfl (h _)

theorem parsePropertiesLoop_cons_object (key : String) (fields rest : List (String × Any))
    (path : String) (m : List (String × Any)) :
    parsePropertiesLoop ((key, Any.object fields) :: rest) path m =
      parsePropertiesLoop rest path
        (mapMerge m (parsePropertiesMap (Any.object fields) (path ++ "/" ++ key))) := by
  rw [parsePropertiesLoop]

mutual
/-- When the keys expected for the leaves are pairwise distinct, `parsePropertiesMap` on an
object yields exactly the expected entries, in the order of the traversal. -/
theorem parsePropertiesMap_eq_leafEntries (val : Any) (path : String)
    (hobj : ∃ fields, val = Any.object fields)
    (hnd : (mapKeys (leafEntries path val)).Nodup) :
    parsePropertiesMap val path = leafEntries path val := by
  match val, hobj, hnd with
  | Any.object fields, _, hnd =>
    have := parsePropertiesLoop_eq_leafEntries fields path []
      (by simpa [leafEntries, leavesOf] using hnd)
    simpa [parsePropertiesMap, leafEntries, leavesOf] using this
  | Any.null, ⟨_, h⟩, _ => cases h
  | Any.bool _, ⟨_, h⟩, _ => cases h
  | Any.number _ _, ⟨_, h⟩, _ => cases h
  | Any.str _, ⟨_, h⟩, _ => cases h
  | Any.time _, ⟨_, h⟩, _ => cases h
  | Any.array _, ⟨_, h⟩, _ => cases h
termination_by structural val
/-- The loop of `parsePropertiesMap` appends the expected entries of the fields it visits. -/
theorem parsePropertiesLoop_eq_leafEntries (entries : List (String × Any)) (path : String)
    (m : List (String × Any))
    (hnd : (mapKeys (m ++ (leavesOfFields entries).map
      (fun e => (pathFrom path e.1, e.2)))).Nodup) :
    parsePropertiesLoop entries path m =
      m ++ (leavesOfFields entries).map (fun e => (pathFrom path e.1, e.2)) := by
  match entries, hnd with
  | [], _ => simp [parsePropertiesLoop, leavesOfFields]
  | (key, val) :: rest, hnd =>
    rw [leavesOfFields_cons_entries] at hnd ⊢
    have hnd2 : (mapKeys ((m ++ leafEntries (path ++ "/" ++ key) val) ++
        (leavesOfFields rest).map (fun e => (pathFrom path e.1, e.2)))).Nodup := by
      simpa [List.append_assoc] using hnd
    have hmA : (mapKeys (m ++ leafEntries (path ++ "/" ++ key) val)).Nodup := by
      simp only [mapKeys, List.map_append] at hnd2 ⊢
      exact (List.nodup_append.1 hnd2).1
    have hrest := parsePropertiesLoop_eq_leafEntries rest path
      (m ++ leafEntries (path ++ "/" ++ key) val) hnd2
    by_cases hobj : ∃ fields, val = Any.object fields
    · have hA : (mapKeys (leafEntries (path ++ "/" ++ key) val)).Nodup := by
        simp only [mapKeys, List.map_append] at hmA ⊢
        exact (List.nodup_append.1 hmA).2.1
      have hval := parsePropertiesMap_eq_leafEntries val (path ++ "/" ++ key) hobj hA
      obtain ⟨fields, hf⟩ := hobj
      subst hf
      rw [parsePropertiesLoop_cons_object, hval, mapMerge_fresh _ _ hmA, hrest,
        List.append_assoc]
    · have hleaf : ∀ fields, val ≠ Any.object fields := fun fields hf => hobj ⟨fields, hf⟩
      rw [leafEntries_of_not_object _ _ hleaf] at hrest hmA ⊢
      have hk : (path ++ "/" ++ key) ∉ mapKeys m := by
        simp only [mapKeys, List.map_append, List.map_cons, List.map_nil] at hmA
        intro hmem
        exact (List.nodup_append.1 hmA).2.2 hmem (List.mem_singleton_self _)
      rw [parsePropertiesLoop_cons_leaf _ _ _ _ _ hleaf, mapInsert_fresh _ _ _ hk, hrest,
        List.append_assoc]
termination_by structural entries
end

theorem intercalate_go_slash (ks : List String) (acc : String) :
    "/" ++ String.intercalate.go acc "/" ks =
      ks.foldl (fun a key => a ++ "/" ++ key) ("/" ++ acc) := by
  induction ks generalizing acc with
  | nil => rfl
  | cons k more ih =>
    simp only [String.intercalate.go, List.foldl_cons]
    rw [ih, String.append_assoc, String.append_assoc, String.append_assoc]

/-- For a path that is not empty, the key accumulated by the flattener from the empty
prefix is `"/"` followed by the keys joined with `"/"`. -/
theorem pathFrom_empty_eq_flatKey (k : String) (ks : List String) :
    pathFrom "" (k :: ks) = flatKey (k :: ks) := by
  simp only [pathFrom, flatKey, String.intercalate, List.foldl_cons]
  rw [intercalate_go_slash]
  congr 1

/-- Every leaf below the fields of an object lies at the end of a path that is not empty. -/
theorem leavesOfFields_path_ne_nil (fields : List (String × Any)) :
    ∀ e ∈ leavesOfFields fields, e.1 ≠ [] := by
  induction fields with
  | nil => intro e he; simp [leavesOfFields] at he
  | cons f rest ih =>
    rcases f with ⟨key, val⟩
    intro e he
    simp only [leavesOfFields, List.mem_append, List.mem_map] at he
    rcases he with ⟨e0, _, rfl⟩ | he
    · simp
    · exact ih e he

theorem leafEntries_object_eq_flatKey (fields : List (String × Any)) :
    leafEntries "" (Any.object fields) =
      (leavesOfFields fields).map (fun e => (flatKey e.1, e.2)) := by
  simp only [leafEntries, leavesOf]
  apply List.map_congr_left
  intro e he
  have hne := leavesOfFields_path_ne_nil fields e he
  rcases e with ⟨p, v⟩
  cases p with
  | nil => exact absurd rfl hne
  | cons k ks => simp only [pathFrom_empty_eq_flatKey]

/-- C4 (as amended): for every tree in which no two leaves have the same flattened path,
`parsePropertyInterface` returns exactly one entry per leaf, whose key is `"/"` followed by
the keys on the path from the root joined with `"/"` and whose value is the leaf value, and
no other entry. -/
theorem parsePropertyInterface_one_entry_per_leaf (tree : List (String × Any))
    (hdistinct : ((leavesOfFields tree).map (fun e => flatKey e.1)).Nodup) :
    parsePropertyInterface tree = (leavesOfFields tree).map (fun e => (flatKey e.1, e.2)) ∧
      (parsePropertyInterface tree).length = (leavesOfFields tree).length := by
  have hnd : (mapKeys (leafEntries "" (Any.object tree))).Nodup := by
    rw [leafEntries_object_eq_flatKey]
    simpa [mapKeys, List.map_map, Function.comp] using hdistinct
  have h := parsePropertiesMap_eq_leafEntries (Any.object tree) "" ⟨tree, rfl⟩ hnd
  rw [leafEntries_object_eq_flatKey] at h
  refine ⟨h, ?_⟩
  simp only [parsePropertyInterface, h, List.length_map]

/-- Witness of C4: the tree `{"a": {"b": 1, "c": {"d": 2}}}` flattens to
`{"/a/b": 1, "/a/c/d": 2}`. -/
theorem parsePropertyInterface_one_entry_per_leaf_witness :
    ((leavesOfFields
        [("a", Any.object [("b", Any.number 1 0), ("c", Any.object [("d", Any.number 2 0)])])]).map
      (fun e => flatKey e.1)).Nodup ∧
    (parsePropertyInterface
        [("a", Any.object [("b", Any.number 1 0), ("c", Any.object [("d", Any.number 2 0)])])]
      = [("/a/b", Any.number 1 0), ("/a/c/d", Any.number 2 0)]) ∧
    (parsePropertyInterface
        [("a", Any.object [("b", Any.number 1 0), ("c", Any.object [("d", Any.number 2 0)])])]).length
      = (leavesOfFields
        [("a", Any.object [("b", Any.number 1 0), ("c", Any.object [("d", Any.number 2 0)])])]).length :=
  ⟨by decide,
    (parsePropertyInterface_one_entry_per_leaf
      [("a", Any.object [("b", Any.number 1 0), ("c", Any.object [("d", Any.number 2 0)])])]
      (by decide)).1,
    (parsePropertyInterface_one_entry_per_leaf
      [("a", Any.object [("b", Any.number 1 0), ("c", Any.object [("d", Any.number 2 0)])])]
      (by decide)).2⟩

/-- C4 (counterexample to the claim as stated): in the tree
`{"a": {"b/c": 1}, "a/b": {"c": 2}}` the two leaves have the same flattened path `/a/b/c`,
and the returned mapping has one entry for the two of them. -/
theorem parsePropertyInterface_merges_colliding_leaves :
    leavesOfFields
        [("a", Any.object [("b/c", Any.number 1 0)]), ("a/b", Any.object [("c", Any.number 2 0)])]
      = [(["a", "b/c"], Any.number 1 0), (["a/b", "c"], Any.number 2 0)] ∧
    parsePropertyInterface
        [("a", Any.object [("b/c", Any.number 1 0)]), ("a/b", Any.object [("c", Any.number 2 0)])]
      = [("/a/b/c", Any.number 2 0)] ∧
    ¬ (parsePropertyInterface
        [("a", Any.object [("b/c", Any.number 1 0)]), ("a/b", Any.object [("c", Any.number 2 0)])]).length
      = (leavesOfFields
        [("a", Any.object [("b/c", Any.number 1 0)]), ("a/b", Any.object [("c", Any.number 2 0)])]).length :=
  ⟨rfl, rfl, by decide⟩

/-! ## Splitting flattened paths -/

theorem splitSlash_ne_nil (cs : List Char) : splitSlash cs ≠ [] := by
  cases cs with
  | nil => simp [splitSlash]
  | cons c more =>
    simp only [splitSlash]
    split_ifs
    · simp
    · split <;> simp

theorem splitSlash_of_no_slash (k : List Char) (h : '/' ∉ k) : splitSlash k = [k] := by
  induction k with
  | nil => rfl
  | cons c more ih =>
    simp only [List.mem_cons, not_or] at h
    have hc : ¬ c = '/' := fun hc => h.1 hc.symm
    simp only [splitSlash, hc, if_false, ih h.2]

theorem splitSlash_append_slash (k : List Char) (h : '/' ∉ k) (cs : List Char) :
    splitSlash (k ++ '/' :: cs) = k :: splitSlash cs := by
  induction k with
  | nil => simp [splitSlash]
  | cons c more ih =>
    simp only [List.mem_cons, not_or] at h
    have hc : ¬ c = '/' := fun hc => h.1 hc.symm
    rw [List.cons_append, splitSlash, if_neg hc, ih h.2]

theorem pathFrom_data (path : List String) (completeKeyPath : String) :
    (pathFrom completeKeyPath path).data =
      completeKeyPath.data ++ (path.map (fun k => '/' :: k.data)).flatten := by
  induction path generalizing completeKeyPath with
  | nil => simp [pathFrom]
  | cons k more ih =>
    have := ih (completeKeyPath ++ "/" ++ k)
    simp only [pathFrom, List.foldl_cons] at this ⊢
    rw [this]
    simp [String.data_append]

theorem splitSlash_keys (ks : List String) (h : ∀ k ∈ ks, '/' ∉ k.data) (k : List Char)
    (hk : '/' ∉ k) :
    splitSlash (k ++ (ks.map (fun s => '/' :: s.data)).flatten) = k :: ks.map String.data := by
  induction ks generalizing k with
  | nil => simpa using splitSlash_of_no_slash k hk
  | cons s more ih =>
    simp only [List.map_cons, List.flatten_cons, List.cons_append]
    rw [splitSlash_append_slash k hk]
    rw [ih (fun x hx => h x (List.mem_cons_of_mem _ hx)) s.data (h s (List.mem_cons_self _ _))]

/-- Splitting the flattened path of a list of keys without `"/"` gives the keys back. -/
theorem segments_pathFrom (path : List String) (h : ∀ k ∈ path, '/' ∉ k.data) :
    segments (pathFrom "" path) = path := by
  simp only [segments, pathFrom_data]
  have := splitSlash_keys path h [] (by simp)
  simp only [List.nil_append] at this
  have hid : (String.mk ∘ String.data) = id := by funext s; rfl
  rw [List.nil_append, this]
  simp [List.map_map, hid]

/-! ## Rebuilding a tree from its leaves -/

theorem mapLookup_fresh {β : Type} (m : List (String × β)) (k : String)
    (h : k ∉ mapKeys m) : mapLookup m k = none := by
  induction m with
  | nil => rfl
  | cons e rest ih =>
    rcases e with ⟨k0, v0⟩
    simp only [mapKeys, List.map_cons, List.mem_cons, not_or] at h
    have hne : ¬ k0 = k := fun hk => h.1 hk.symm
    simp only [mapLookup, hne, if_false]
    exact ih h.2

theorem mapLookup_append_fresh {β : Type} (m : List (String × β)) (k : String) (x : β)
    (h : k ∉ mapKeys m) : mapLookup (m ++ [(k, x)]) k = some x := by
  induction m with
  | nil => simp [mapLookup]
  | cons e rest ih =>
    rcases e with ⟨k0, v0⟩
    simp only [mapKeys, List.map_cons, List.mem_cons, not_or] at h
    have hne : ¬ k0 = k := fun hk => h.1 hk.symm
    simp only [List.cons_append, mapLookup, hne, if_false]
    exact ih h.2

theorem mapInsert_append_same {β : Type} (m : List (String × β)) (k : String) (x y : β)
    (h : k ∉ mapKeys m) : mapInsert (m ++ [(k, x)]) k y = m ++ [(k, y)] := by
  induction m with
  | nil => simp [mapInsert]
  | cons e rest ih =>
    rcases e with ⟨k0, v0⟩
    simp only [mapKeys, List.map_cons, List.mem_cons, not_or] at h
    have hne : ¬ k0 = k := fun hk => h.1 hk.symm
    rw [List.cons_append, mapInsert, if_neg hne, ih h.2]
    rfl

theorem placeAll_append (tree : List (String × Any)) (xs ys : List (List String × Any)) :
    placeAll tree (xs ++ ys) = placeAll (placeAll tree xs) ys := by
  simp [placeAll, List.foldl_append]

/-- Leaves that all lie below the key `key` are placed inside the object stored under it. -/
theorem placeAll_under_existing (key : String) (done : List (String × Any))
    (hkey : key ∉ mapKeys done) (leaves : List (List String × Any))
    (hne : ∀ e ∈ leaves, e.1 ≠ []) (sub : List (String × Any)) :
    placeAll (done ++ [(key, Any.object sub)]) (leaves.map (fun e => (key :: e.1, e.2))) =
      done ++ [(key, Any.object (placeAll sub leaves))] := by
  induction leaves generalizing sub with
  | nil => rfl
  | cons e more ih =>
    rcases e with ⟨p, v⟩
    have hp : p ≠ [] := hne (p, v) (List.mem_cons_self _ _)
    cases p with
    | nil => exact absurd rfl hp
    | cons s ss =>
      have hstep : insertAt (done ++ [(key, Any.object sub)]) (key :: s :: ss) v =
          done ++ [(key, Any.object (insertAt sub (s :: ss) v))] := by
        rw [insertAt, mapLookup_append_fresh _ _ _ hkey, mapInsert_append_same _ _ _ _ hkey]
      have := ih (fun x hx => hne x (List.mem_cons_of_mem _ hx)) (insertAt sub (s :: ss) v)
      simp only [placeAll, List.map_cons, List.foldl_cons] at this ⊢
      rw [hstep, this]

/-- Leaves that all lie below a key that the tree does not have yet end up in one new
object under that key. -/
theorem placeAll_under_fresh (key : String) (done : List (String × Any))
    (hkey : key ∉ mapKeys done) (leaves : List (List String × Any))
    (hne : ∀ e ∈ leaves, e.1 ≠ []) (hleaves : leaves ≠ []) :
    placeAll done (leaves.map (fun e => (key :: e.1, e.2))) =
      done ++ [(key, Any.object (placeAll [] leaves))] := by
  cases leaves with
  | nil => exact absurd rfl hleaves
  | cons e more =>
    rcases e with ⟨p, v⟩
    have hp : p ≠ [] := hne (p, v) (List.mem_cons_self _ _)
    cases p with
    | nil => exact absurd rfl hp
    | cons s ss =>
      have hstep : insertAt done (key :: s :: ss) v =
          done ++ [(key, Any.object (insertAt [] (s :: ss) v))] := by
        rw [insertAt, mapLookup_fresh _ _ hkey, mapInsert_fresh _ _ _ hkey]
      have := placeAll_under_existing key done hkey more
        (fun x hx => hne x (List.mem_cons_of_mem _ hx)) (insertAt [] (s :: ss) v)
      simp only [placeAll, List.map_cons, List.foldl_cons] at this ⊢
      rw [hstep, this]

/-- Every leaf below the fields of an object lies on a path that starts with one of the
keys of the object. -/
theorem leavesOfFields_head_mem (fields : List (String × Any)) :
    ∀ e ∈ leavesOfFields fields, ∃ k ∈ mapKeys fields, ∃ p, e.1 = k :: p := by
  induction fields with
  | nil => intro e he; simp [leavesOfFields] at he
  | cons f rest ih =>
    rcases f with ⟨key, val⟩
    intro e he
    simp only [leavesOfFields, List.mem_append, List.mem_map] at he
    rcases he with ⟨e0, _, rfl⟩ | he
    · exact ⟨key, by simp [mapKeys], e0.1, rfl⟩
    · obtain ⟨k, hk, p, hp⟩ := ih e he
      exact ⟨k, by simp only [mapKeys, List.map_cons, List.mem_cons]; exact Or.inr hk, p, hp⟩

theorem splitSafeFields_cons (key : String) (val : Any) (rest : List (String × Any))
    (h : splitSafeFields ((key, val) :: rest) = true) :
    '/' ∉ key.data ∧ key ∉ mapKeys rest ∧ splitSafe val = true ∧
      splitSafeFields rest = true := by
  rw [splitSafeFields] at h
  simp only [Bool.and_eq_true, Bool.not_eq_true', List.contains_eq_any_beq,
    List.any_eq_false, beq_iff_eq] at h
  obtain ⟨⟨⟨h1, h2⟩, h3⟩, h4⟩ := h
  refine ⟨?_, ?_, h3, h4⟩
  · intro hmem
    exact h1 _ hmem rfl
  · intro hmem
    exact h2 _ hmem rfl

/-- Step of the rebuilding argument: the facts for the leaves of a field's value and for the
remaining fields give the facts for the whole list of fields. -/
theorem leavesRebuild_cons (key : String) (val : Any) (rest : List (String × Any))
    (hslash : '/' ∉ key.data) (hfresh : key ∉ mapKeys rest)
    (hrest : LeavesRebuild rest)
    (hA1 : ∀ e ∈ leavesOf val, ∀ k ∈ e.1, '/' ∉ k.data)
    (hA2 : ((leavesOf val).map Prod.fst).Nodup)
    (hA3 : leavesOf val ≠ [])
    (hA4 : ∀ done : List (String × Any), key ∉ mapKeys done →
      placeAll done ((leavesOf val).map (fun e => (key :: e.1, e.2))) = done ++ [(key, val)]) :
    LeavesRebuild ((key, val) :: rest) := by
  obtain ⟨r1, r2, _, r4⟩ := hrest
  refine ⟨?_, ?_, ?_, ?_⟩
  · intro e he k hk
    simp only [leavesOfFields, List.mem_append, List.mem_map] at he
    rcases he with ⟨e0, he0, rfl⟩ | he
    · simp only [List.mem_cons] at hk
      rcases hk with rfl | hk
      · exact hslash
      · exact hA1 e0 he0 k hk
    · exact r1 e he k hk
  · simp only [leavesOfFields, List.map_append, List.map_map]
    rw [List.nodup_append]
    refine ⟨?_, r2, ?_⟩
    · have : (List.map (Prod.fst ∘ fun e => (key :: e.1, e.2)) (leavesOf val)) =
          ((leavesOf val).map Prod.fst).map (fun p => key :: p) := by
        simp [List.map_map, Function.comp]
      rw [this]
      exact hA2.map (fun a b hab => by simpa using hab)
    · intro p hp1 hp2
      simp only [List.mem_map, Function.comp] at hp1 hp2
      obtain ⟨e1, _, rfl⟩ := hp1
      obtain ⟨e2, he2, h12⟩ := hp2
      obtain ⟨k, hk, q, hq⟩ := leavesOfFields_head_mem rest e2 he2
      rw [hq] at h12
      simp only [List.cons.injEq] at h12
      exact hfresh (h12.1 ▸ hk)
  · intro _
    simp only [leavesOfFields]
    intro hnil
    have := List.append_eq_nil.1 hnil
    exact hA3 (List.map_eq_nil_iff.1 this.1)
  · intro done hdisj
    have hkd : key ∉ mapKeys done := hdisj key (by simp [mapKeys])
    simp only [leavesOfFields]
    rw [placeAll_append, hA4 done hkd, r4]
    · simp
    · intro k hk hmem
      simp only [mapKeys, List.map_append, List.map_cons, List.map_nil, List.mem_append,
        List.mem_singleton] at hmem
      rcases hmem with hmem | rfl
      · exact hdisj k (by simp only [mapKeys, List.map_cons, List.mem_cons]; exact Or.inr hk)
          hmem
      · exact hfresh hk

mutual
/-- The rebuilding facts for the fields of a nested object that survives the round trip. -/
theorem leavesRebuild_of_object (val : Any) (fields : List (String × Any))
    (hval : val = Any.object fields) (h : splitSafeFields fields = true) :
    LeavesRebuild fields := by
  match val, hval with
  | Any.object fs, hval =>
    have hfs : fs = fields := by injection hval
    exact hfs ▸ leavesRebuild_of_fields fs (hfs ▸ h)
termination_by structural val
/-- The rebuilding facts for a list of fields that survives the round trip. -/
theorem leavesRebuild_of_fields (fields : List (String × Any))
    (h : splitSafeFields fields = true) : LeavesRebuild fields := by
  match fields, h with
  | [], _ =>
    refine ⟨?_, ?_, ?_, ?_⟩
    · intro e he; simp [leavesOfFields] at he
    · simp [leavesOfFields]
    · intro hne; exact absurd rfl hne
    · intro done _; simp [leavesOfFields, placeAll]
  | (key, val) :: rest, h =>
    obtain ⟨hslash, hfresh, hval, hrestSafe⟩ := splitSafeFields_cons key val rest h
    have hrest := leavesRebuild_of_fields rest hrestSafe
    by_cases hobj : ∃ fs, val = Any.object fs
    · obtain ⟨fs, hfs⟩ := hobj
      have hsafe : fs ≠ [] ∧ splitSafeFields fs = true := by
        rw [hfs, splitSafe] at hval
        simp only [Bool.and_eq_true, Bool.not_eq_true', List.isEmpty_eq_false] at hval
        exact hval
      have hsub := leavesRebuild_of_object val fs hfs hsafe.2
      obtain ⟨s1, s2, s3, s4⟩ := hsub
      have hleaves : leavesOf val = leavesOfFields fs := by rw [hfs, leavesOf]
      apply leavesRebuild_cons key val rest hslash hfresh hrest
      · rw [hleaves]; exact s1
      · rw [hleaves]; exact s2
      · rw [hleaves]; exact s3 hsafe.1
      · intro done hkd
        rw [hleaves, placeAll_under_fresh key done hkd _
          (leavesOfFields_path_ne_nil fs) (s3 hsafe.1), s4 [] (by simp [mapKeys]), hfs]
        simp
    · have hleaf : ∀ fs, val ≠ Any.object fs := fun fs hf => hobj ⟨fs, hf⟩
      have hleaves : leavesOf val = [([], val)] := by
        cases val <;> first | rfl | exact absurd rfl (hleaf _)
      apply leavesRebuild_cons key val rest hslash hfresh hrest
      · rw [hleaves]; simp
      · rw [hleaves]; simp
      · rw [hleaves]; simp
      · intro done hkd
        rw [hleaves]
        simp only [placeAll, List.map_cons, List.map_nil, List.foldl_cons, List.foldl_nil,
          insertAt]
        exact mapInsert_fresh done key val hkd
termination_by structural fields
end

/-- C5 (as amended): for every tree in which no key contains `"/"` and no nested object is
empty (the keys of an object being pairwise distinct, as in any Go map), rebuilding a tree
from `parsePropertyInterface tree` by splitting each key on `"/"` and nesting objects along
the segments gives the tree back. -/
theorem rebuild_parsePropertyInterface (tree : List (String × Any))
    (hsafe : splitSafeFields tree = true) :
    rebuild (parsePropertyInterface tree) = tree := by
  obtain ⟨f1, f2, _, f4⟩ := leavesRebuild_of_fields tree hsafe
  have hkeys : mapKeys (leafEntries "" (Any.object tree)) =
      ((leavesOfFields tree).map Prod.fst).map (pathFrom "") := by
    simp [mapKeys, leafEntries, leavesOf, List.map_map, Function.comp]
  have hnd : (mapKeys (leafEntries "" (Any.object tree))).Nodup := by
    rw [hkeys]
    apply List.Nodup.map_on _ f2
    intro x hx y hy hxy
    obtain ⟨ex, hex, rfl⟩ := List.mem_map.1 hx
    obtain ⟨ey, hey, rfl⟩ := List.mem_map.1 hy
    rw [← segments_pathFrom ex.1 (f1 ex hex), ← segments_pathFrom ey.1 (f1 ey hey), hxy]
  have hflat := parsePropertiesMap_eq_leafEntries (Any.object tree) "" ⟨tree, rfl⟩ hnd
  have hplace : rebuild (leafEntries "" (Any.object tree)) =
      placeAll [] (leavesOfFields tree) := by
    simp only [rebuild, leafEntries, leavesOf, placeAll, List.foldl_map]
    apply List.foldl_ext
    intro t e he
    rw [segments_pathFrom e.1 (f1 e he)]
  rw [parsePropertyInterface, hflat, hplace, f4 [] (by simp [mapKeys])]
  rfl

/-- Witness of C5: the tree `{"a": {"b": 1, "c": {"d": 2}}, "e": null}`. -/
theorem rebuild_parsePropertyInterface_witness :
    splitSafeFields
        [("a", Any.object [("b", Any.number 1 0), ("c", Any.object [("d", Any.number 2 0)])]),
          ("e", Any.null)] = true ∧
    rebuild (parsePropertyInterface
        [("a", Any.object [("b", Any.number 1 0), ("c", Any.object [("d", Any.number 2 0)])]),
          ("e", Any.null)])
      = [("a", Any.object [("b", Any.number 1 0), ("c", Any.object [("d", Any.number 2 0)])]),
          ("e", Any.null)] :=
  ⟨by decide,
    rebuild_parsePropertyInterface
      [("a", Any.object [("b", Any.number 1 0), ("c", Any.object [("d", Any.number 2 0)])]),
        ("e", Any.null)]
      (by decide)⟩

/-- C5 (counterexample to the claim as stated): an empty nested object leaves no entry in the
flattened mapping, so `{"a": {}}` is rebuilt as the empty tree; and a key that contains `"/"`
is split on the way back, so `{"a/b": 1}` is rebuilt as `{"a": {"b": 1}}`.  Neither result
has the keys of the tree it came from. -/
theorem rebuild_loses_empty_objects_and_slash_keys :
    parsePropertyInterface [("a", Any.object [])] = [] ∧
    rebuild (parsePropertyInterface [("a", Any.object [])]) = [] ∧
    mapKeys (rebuild (parsePropertyInterface [("a", Any.object [])])) ≠
      mapKeys [("a", Any.object [])] ∧
    parsePropertyInterface [("a/b", Any.number 1 0)] = [("/a/b", Any.number 1 0)] ∧
    rebuild (parsePropertyInterface [("a/b", Any.number 1 0)]) =
      [("a", Any.object [("b", Any.number 1 0)])] ∧
    mapKeys (rebuild (parsePropertyInterface [("a/b", Any.number 1 0)])) ≠
      mapKeys [("a/b", Any.number 1 0)] :=
  ⟨rfl, rfl, by decide, rfl, rfl, by decide⟩

/-! ## Terminal samples -/

/-- C8: for a terminal sample whose `timestamp` is a string that parses, a
`reception_timestamp` string that fails to parse does not abort `parseDatastreamValue`: the
call succeeds with the sample's value, the parsed timestamp and the zero-value instant as
reception timestamp. -/
theorem parseDatastreamValue_tolerates_reception_failure
    (timeParse : String → Except String Time) (aMap : List (String × Any))
    (ts rts err : String) (t : Time)
    (hts : mapIndex aMap "timestamp" = Any.str ts)
    (hparse : timeParse ts = Except.ok t)
    (hrts : mapIndex aMap "reception_timestamp" = Any.str rts)
    (hfail : timeParse rts = Except.error err) :
    parseDatastreamValue timeParse aMap =
      Result.ok (DatastreamValue.mk (mapIndex aMap "value") t zeroTime) := by
  simp [parseDatastreamValue, hts, hrts, timeParseGo, hparse, hfail]

/-- Witness of C8: a sample received "yesterday". -/
theorem parseDatastreamValue_tolerates_reception_failure_witness :
    mapIndex [("value", Any.number 215 (-1)),
        ("timestamp", Any.str "2023-01-01T00:00:00.000000Z"),
        ("reception_timestamp", Any.str "yesterday")] "timestamp"
      = Any.str "2023-01-01T00:00:00.000000Z" ∧
    parseUTC "2023-01-01T00:00:00.000000Z" = Except.ok (Time.mk 2023 1 1 0 0 0 0) ∧
    mapIndex [("value", Any.number 215 (-1)),
        ("timestamp", Any.str "2023-01-01T00:00:00.000000Z"),
        ("reception_timestamp", Any.str "yesterday")] "reception_timestamp"
      = Any.str "yesterday" ∧
    parseUTC "yesterday" = Except.error "parsing time yesterday: malformed" ∧
    parseDatastreamValue parseUTC [("value", Any.number 215 (-1)),
        ("timestamp", Any.str "2023-01-01T00:00:00.000000Z"),
        ("reception_timestamp", Any.str "yesterday")]
      = Result.ok (DatastreamValue.mk (Any.number 215 (-1)) (Time.mk 2023 1 1 0 0 0 0)
          zeroTime) :=
  ⟨rfl, rfl, rfl, rfl,
    parseDatastreamValue_tolerates_reception_failure parseUTC
      [("value", Any.number 215 (-1)),
        ("timestamp", Any.str "2023-01-01T00:00:00.000000Z"),
        ("reception_timestamp", Any.str "yesterday")]
      "2023-01-01T00:00:00.000000Z" "yesterday" "parsing time yesterday: malformed"
      (Time.mk 2023 1 1 0 0 0 0) rfl rfl rfl rfl⟩

/-- A sample whose timestamps have the dynamic types that `parseDatastreamValue` handles
parses to the `DatastreamValue` it stands for. -/
theorem parseDatastreamValue_of_wellTimed (timeParse : String → Except String Time)
    (sample : List (String × Any)) (h : wellTimed timeParse sample = true) :
    parseDatastreamValue timeParse sample = Result.ok (sampleOf timeParse sample) := by
  unfold wellTimed at h
  unfold parseDatastreamValue sampleOf instantOf
  split at h
  · rename_i h1 h2
    simp [h1, h2]
  · rename_i ts rts h1 h2
    split at h
    · rename_i t ht
      simp [h1, h2, timeParseGo, ht]
    · exact absurd h (by decide)
  · exact absurd h (by decide)

/-- A sample with a bad `timestamp` makes `parseDatastreamValue` return an error. -/
theorem parseDatastreamValue_of_badTimestamp (timeParse : String → Except String Time)
    (sample : List (String × Any)) (h : badTimestamp timeParse sample = true) :
    ∃ err, parseDatastreamValue timeParse sample = Result.error err := by
  unfold badTimestamp at h
  unfold parseDatastreamValue
  split at h
  · exact absurd h (by decide)
  · rename_i ts h1
    split at h
    · exact absurd h (by decide)
    · rename_i err herr
      exact ⟨err, by simp [h1, timeParseGo, herr]⟩
  · rename_i h1 h2
    exact ⟨"Unable to parse Datastream", rfl⟩

/-- An object that has a `"value"` key is one terminal sample: `parseDatastreamMap` hands
the object itself to `parseDatastreamValue` and returns its outcome, as the single entry at
the path accumulated so far when it is a value.  Nothing below the object is visited. -/
theorem parseDatastreamMap_of_value_key (timeParse : String → Except String Time)
    (fields : List (String × Any)) (completeKeyPath : String)
    (h : mapHasKey fields "value" = true) :
    parseDatastreamMap timeParse (Any.object fields) completeKeyPath =
      match parseDatastreamValue timeParse fields with
      | Result.ok datastreamValue => Result.ok [(completeKeyPath, datastreamValue)]
      | Result.error err => Result.error err
      | Result.panic => Result.panic := by
  rw [parseDatastreamMap, if_pos h]
  rfl

/-! ## Flattening of a datastream snapshot -/

theorem samplesOfFields_cons_entries (timeParse : String → Except String Time) (key : String)
    (val : Any) (rest : List (String × Any)) (path : String) :
    (samplesOfFields ((key, val) :: rest)).map
        (fun e => (pathFrom path e.1, sampleOf timeParse e.2)) =
      sampleEntries timeParse (path ++ "/" ++ key) val ++
        (samplesOfFields rest).map (fun e => (pathFrom path e.1, sampleOf timeParse e.2)) := by
  simp [samplesOfFields, sampleEntries, pathFrom, List.map_map, Function.comp]

theorem samplesOfFields_cons_mem (key : String) (val : Any) (rest : List (String × Any))
    (P : List (String × Any) → Prop)
    (h : ∀ e ∈ samplesOfFields ((key, val) :: rest), P e.2) :
    (∀ e ∈ samplesOf val, P e.2) ∧ (∀ e ∈ samplesOfFields rest, P e.2) := by
  constructor
  · intro e he
    exact h (key :: e.1, e.2) (by
      simp only [samplesOfFields, List.mem_append, List.mem_map]
      exact Or.inl ⟨e, he, rfl⟩)
  · intro e he
    exact h e (by
      simp only [samplesOfFields, List.mem_append]
      exact Or.inr he)

theorem samplesOf_of_not_object (val : Any) (h : ∀ fields, val ≠ Any.object fields) :
    samplesOf val = [] := by
  cases val <;> first | rfl | exact absurd rfl (h _)

theorem parseDatastreamLoop_cons_leaf (timeParse : String → Except String Time)
    (key : String) (val : Any) (rest : List (String × Any)) (path : String)
    (m : List (String × DatastreamValue)) (h : ∀ fields, val ≠ Any.object fields) :
    parseDatastreamLoop timeParse ((key, val) :: rest) path m =
      parseDatastreamLoop timeParse rest path m := by
  cases val <;> first | rfl | exact absurd rfl (h _)

theorem parseDatastreamLoop_cons_object (timeParse : String → Except String Time)
    (key : String) (fields rest : List (String × Any)) (path : String)
    (m : List (String × DatastreamValue)) :
    parseDatastreamLoop timeParse ((key, Any.object fields) :: rest) path m =
      match parseDatastreamMap timeParse (Any.object fields) (path ++ "/" ++ key) with
      | Result.ok parsedMap => parseDatastreamLoop timeParse rest path (mapMerge m parsedMap)
      | Result.error err => Result.error err
      | Result.panic => Result.panic := by
  rw [parseDatastreamLoop]

mutual
/-- When every terminal sample below a value is well timed and the keys expected for the
samples are pairwise distinct, `parseDatastreamMap` yields exactly the expected entries. -/
theorem parseDatastreamMap_eq_sampleEntries (timeParse : String → Except String Time)
    (val : Any) (path : String)
    (hwell : ∀ e ∈ samplesOf val, wellTimed timeParse e.2 = true)
    (hnd : (mapKeys (sampleEntries timeParse path val)).Nodup) :
    parseDatastreamMap timeParse val path = Result.ok (sampleEntries timeParse path val) := by
  match val, hwell, hnd with
  | Any.object fields, hwell, hnd =>
    by_cases hv : mapHasKey fields "value" = true
    · have hs : samplesOf (Any.object fields) = [([], fields)] := by
        rw [samplesOf, if_pos hv]
      have hw : wellTimed timeParse fields = true :=
        hwell ([], fields) (by rw [hs]; exact List.mem_singleton_self _)
      rw [parseDatastreamMap_of_value_key timeParse fields path hv,
        parseDatastreamValue_of_wellTimed timeParse fields hw]
      simp [sampleEntries, hs, pathFrom]
    · have hs : samplesOf (Any.object fields) = samplesOfFields fields := by
        rw [samplesOf, if_neg hv]
      have := parseDatastreamLoop_eq_sampleEntries timeParse fields path []
        (by intro e he; exact hwell e (by rw [hs]; exact he))
        (by simpa [sampleEntries, hs] using hnd)
      rw [parseDatastreamMap, if_neg hv, this]
      simp [sampleEntries, hs]
  | Any.null, _, _ => rfl
  | Any.bool _, _, _ => rfl
  | Any.number _ _, _, _ => rfl
  | Any.str _, _, _ => rfl
  | Any.time _, _, _ => rfl
  | Any.array _, _, _ => rfl
termination_by structural val
/-- The loop of `parseDatastreamMap` appends the expected entries of the fields it visits. -/
theorem parseDatastreamLoop_eq_sampleEntries (timeParse : String → Except String Time)
    (entries : List (String × Any)) (path : String) (m : List (String × DatastreamValue))
    (hwell : ∀ e ∈ samplesOfFields entries, wellTimed timeParse e.2 = true)
    (hnd : (mapKeys (m ++ (samplesOfFields entries).map
      (fun e => (pathFrom path e.1, sampleOf timeParse e.2)))).Nodup) :
    parseDatastreamLoop timeParse entries path m =
      Result.ok (m ++ (samplesOfFields entries).map
        (fun e => (pathFrom path e.1, sampleOf timeParse e.2))) := by
  match entries, hwell, hnd with
  | [], _, _ => simp [parseDatastreamLoop, samplesOfFields]
  | (key, val) :: rest, hwell, hnd =>
    obtain ⟨hwVal, hwRest⟩ := samplesOfFields_cons_mem key val rest
      (fun s => wellTimed timeParse s = true) hwell
    rw [samplesOfFields_cons_entries] at hnd ⊢
    have hnd2 : (mapKeys ((m ++ sampleEntries timeParse (path ++ "/" ++ key) val) ++
        (samplesOfFields rest).map
          (fun e => (pathFrom path e.1, sampleOf timeParse e.2)))).Nodup := by
      simpa [List.append_assoc] using hnd
    have hmA : (mapKeys (m ++ sampleEntries timeParse (path ++ "/" ++ key) val)).Nodup := by
      simp only [mapKeys, List.map_append] at hnd2 ⊢
      exact (List.nodup_append.1 hnd2).1
    have hrest := parseDatastreamLoop_eq_sampleEntries timeParse rest path
      (m ++ sampleEntries timeParse (path ++ "/" ++ key) val) hwRest hnd2
    by_cases hobj : ∃ fields, val = Any.object fields
    · have hA : (mapKeys (sampleEntries timeParse (path ++ "/" ++ key) val)).Nodup := by
        simp only [mapKeys, List.map_append] at hmA ⊢
        exact (List.nodup_append.1 hmA).2.1
      have hval := parseDatastreamMap_eq_sampleEntries timeParse val (path ++ "/" ++ key)
        hwVal hA
      obtain ⟨fields, hf⟩ := hobj
      subst hf
      rw [parseDatastreamLoop_cons_object, hval]
      simp only
      rw [mapMerge_fresh _ _ hmA, hrest, List.append_assoc]
    · have hleaf : ∀ fields, val ≠ Any.object fields := fun fields hf => hobj ⟨fields, hf⟩
      have hn : sampleEntries timeParse (path ++ "/" ++ key) val = [] := by
        simp [sampleEntries, samplesOf_of_not_object val hleaf]
      rw [hn] at hrest ⊢
      rw [parseDatastreamLoop_cons_leaf _ _ _ _ _ _ hleaf]
      simpa using hrest
termination_by structural entries
end

/-- C6 (as amended): for every datastream tree in which the outermost terminal subtrees have
pairwise distinct flattened paths and each of them is well timed (a native-instant
`timestamp` with a native-instant `reception_timestamp`, or a `timestamp` string that parses
with a `reception_timestamp` string, parsable or not), `parseDatastreamInterface` succeeds
and returns exactly one `DatastreamValue` per outermost terminal subtree, under the flattened
path of the subtree. -/
theorem parseDatastreamInterface_one_entry_per_sample
    (timeParse : String → Except String Time) (tree : List (String × Any))
    (hwell : ∀ e ∈ samplesOf (Any.object tree), wellTimed timeParse e.2 = true)
    (hdistinct : ((samplesOf (Any.object tree)).map (fun e => pathFrom "" e.1)).Nodup) :
    parseDatastreamInterface timeParse tree =
      Result.ok ((samplesOf (Any.object tree)).map
        (fun e => (pathFrom "" e.1, sampleOf timeParse e.2))) := by
  have hnd : (mapKeys (sampleEntries timeParse "" (Any.object tree))).Nodup := by
    simpa [mapKeys, sampleEntries, List.map_map, Function.comp] using hdistinct
  exact parseDatastreamMap_eq_sampleEntries timeParse (Any.object tree) "" hwell hnd

/-- Witness of C6: the tree `{"temperature": {"value": 21.5, "timestamp":
"2023-01-01T00:00:00.000000Z", "reception_timestamp": "2023-01-01T00:00:00.100000Z"}}` gives
the single entry `/temperature` with value 21.5 and those two instants. -/
theorem parseDatastreamInterface_one_entry_per_sample_witness :
    (∀ e ∈ samplesOf (Any.object
        [("temperature", Any.object [("value", Any.number 215 (-1)),
          ("timestamp", Any.str "2023-01-01T00:00:00.000000Z"),
          ("reception_timestamp", Any.str "2023-01-01T00:00:00.100000Z")])]),
      wellTimed parseUTC e.2 = true) ∧
    ((samplesOf (Any.object
        [("temperature", Any.object [("value", Any.number 215 (-1)),
          ("timestamp", Any.str "2023-01-01T00:00:00.000000Z"),
          ("reception_timestamp", Any.str "2023-01-01T00:00:00.100000Z")])])).map
      (fun e => pathFrom "" e.1)).Nodup ∧
    parseDatastreamInterface parseUTC
        [("temperature", Any.object [("value", Any.number 215 (-1)),
          ("timestamp", Any.str "2023-01-01T00:00:00.000000Z"),
          ("reception_timestamp", Any.str "2023-01-01T00:00:00.100000Z")])]
      = Result.ok [("/temperature",
          DatastreamValue.mk (Any.number 215 (-1)) (Time.mk 2023 1 1 0 0 0 0)
            (Time.mk 2023 1 1 0 0 0 100000000))] :=
  ⟨by decide, by decide,
    parseDatastreamInterface_one_entry_per_sample parseUTC
      [("temperature", Any.object [("value", Any.number 215 (-1)),
        ("timestamp", Any.str "2023-01-01T00:00:00.000000Z"),
        ("reception_timestamp", Any.str "2023-01-01T00:00:00.100000Z")])]
      (by decide) (by decide)⟩

/-- C6 (counterexample to the claim as stated): in the tree
`{"a": {"b/c": S}, "a/b": {"c": S}}`, where `S` is a sample with a value and two valid
timestamp strings, there are two terminal subtrees, both well timed, with the same flattened
path `/a/b/c`; the call succeeds and returns one `DatastreamValue` for the two of them. -/
theorem parseDatastreamInterface_merges_colliding_samples :
    (samplesOf (Any.object
        [("a", Any.object [("b/c", Any.object [("value", Any.number 1 0),
            ("timestamp", Any.str "2023-01-01T00:00:00Z"),
            ("reception_timestamp", Any.str "2023-01-01T00:00:00Z")])]),
          ("a/b", Any.object [("c", Any.object [("value", Any.number 2 0),
            ("timestamp", Any.str "2023-01-01T00:00:00Z"),
            ("reception_timestamp", Any.str "2023-01-01T00:00:00Z")])])])).map Prod.fst
      = [["a", "b/c"], ["a/b", "c"]] ∧
    (∀ e ∈ samplesOf (Any.object
        [("a", Any.object [("b/c", Any.object [("value", Any.number 1 0),
            ("timestamp", Any.str "2023-01-01T00:00:00Z"),
            ("reception_timestamp", Any.str "2023-01-01T00:00:00Z")])]),
          ("a/b", Any.object [("c", Any.object [("value", Any.number 2 0),
            ("timestamp", Any.str "2023-01-01T00:00:00Z"),
            ("reception_timestamp", Any.str "2023-01-01T00:00:00Z")])])]),
      wellTimed parseUTC e.2 = true) ∧
    parseDatastreamInterface parseUTC
        [("a", Any.object [("b/c", Any.object [("value", Any.number 1 0),
            ("timestamp", Any.str "2023-01-01T00:00:00Z"),
            ("reception_timestamp", Any.str "2023-01-01T00:00:00Z")])]),
          ("a/b", Any.object [("c", Any.object [("value", Any.number 2 0),
            ("timestamp", Any.str "2023-01-01T00:00:00Z"),
            ("reception_timestamp", Any.str "2023-01-01T00:00:00Z")])])]
      = Result.ok [("/a/b/c",
          DatastreamValue.mk (Any.number 2 0) (Time.mk 2023 1 1 0 0 0 0)
            (Time.mk 2023 1 1 0 0 0 0))] :=
  ⟨rfl, by decide, rfl⟩

/-- C9 (the code panics): a tree whose top level has a `"value"` key and a valid
`timestamp` string but no `reception_timestamp` does not yield a mapping: the type assertion
`aMap["reception_timestamp"].(string)` at line 164 panics.  The same happens one level down,
and for a native-instant `timestamp` (line 158). -/
theorem parseDatastreamInterface_panics_without_reception :
    mapHasKey [("value", Any.number 1 0), ("timestamp", Any.str "2023-01-01T00:00:00Z")]
      "value" = true ∧
    parseUTC "2023-01-01T00:00:00Z" = Except.ok (Time.mk 2023 1 1 0 0 0 0) ∧
    parseDatastreamInterface parseUTC
        [("value", Any.number 1 0), ("timestamp", Any.str "2023-01-01T00:00:00Z")]
      = Result.panic ∧
    parseDatastreamInterface parseUTC
        [("temperature", Any.object [("value", Any.number 215 (-1)),
          ("timestamp", Any.str "2023-01-01T00:00:00.000000Z")])]
      = Result.panic ∧
    parseDatastreamInterface parseUTC
        [("value", Any.number 1 0), ("timestamp", Any.time (Time.mk 2023 1 1 0 0 0 0))]
      = Result.panic :=
  ⟨rfl, rfl, rfl, rfl, rfl⟩

/-! ## Errors of the datastream flattener -/

theorem parseDatastreamValue_ne_panic (timeParse : String → Except String Time)
    (sample : List (String × Any))
    (h : badTimestamp timeParse sample = true ∨ wellTimed timeParse sample = true) :
    parseDatastreamValue timeParse sample ≠ Result.panic := by
  rcases h with h | h
  · obtain ⟨err, herr⟩ := parseDatastreamValue_of_badTimestamp timeParse sample h
    rw [herr]
    exact fun hc => Result.noConfusion hc
  · rw [parseDatastreamValue_of_wellTimed timeParse sample h]
    exact fun hc => Result.noConfusion hc

mutual
/-- When no terminal sample below a value can make `parseDatastreamValue` panic, the
flattener does not panic, and it returns an error as soon as one of the samples has a bad
`timestamp`. -/
theorem parseDatastreamMap_error_of_bad (timeParse : String → Except String Time)
    (val : Any) (path : String)
    (hall : ∀ e ∈ samplesOf val,
      badTimestamp timeParse e.2 = true ∨ wellTimed timeParse e.2 = true) :
    parseDatastreamMap timeParse val path ≠ Result.panic ∧
      ((∃ e ∈ samplesOf val, badTimestamp timeParse e.2 = true) →
        ∃ err, parseDatastreamMap timeParse val path = Result.error err) := by
  match val, hall with
  | Any.object fields, hall =>
    by_cases hv : mapHasKey fields "value" = true
    · have hs : samplesOf (Any.object fields) = [([], fields)] := by
        rw [samplesOf, if_pos hv]
      have hone := hall ([], fields) (by rw [hs]; exact List.mem_singleton_self _)
      rw [parseDatastreamMap_of_value_key timeParse fields path hv]
      constructor
      · have hnp := parseDatastreamValue_ne_panic timeParse fields hone
        cases hp : parseDatastreamValue timeParse fields with
        | ok dv => exact fun hc => Result.noConfusion hc
        | error err => exact fun hc => Result.noConfusion hc
        | panic => exact absurd hp hnp
      · rintro ⟨e, he, hbad⟩
        rw [hs, List.mem_singleton] at he
        subst he
        obtain ⟨err, herr⟩ := parseDatastreamValue_of_badTimestamp timeParse fields hbad
        exact ⟨err, by rw [herr]⟩
    · have hs : samplesOf (Any.object fields) = samplesOfFields fields := by
        rw [samplesOf, if_neg hv]
      have := parseDatastreamLoop_error_of_bad timeParse fields path []
        (by intro e he; exact hall e (by rw [hs]; exact he))
      rw [parseDatastreamMap, if_neg hv, hs]
      exact this
  | Any.null, _ => exact ⟨fun hc => Result.noConfusion hc, by simp [samplesOf]⟩
  | Any.bool _, _ => exact ⟨fun hc => Result.noConfusion hc, by simp [samplesOf]⟩
  | Any.number _ _, _ => exact ⟨fun hc => Result.noConfusion hc, by simp [samplesOf]⟩
  | Any.str _, _ => exact ⟨fun hc => Result.noConfusion hc, by simp [samplesOf]⟩
  | Any.time _, _ => exact ⟨fun hc => Result.noConfusion hc, by simp [samplesOf]⟩
  | Any.array _, _ => exact ⟨fun hc => Result.noConfusion hc, by simp [samplesOf]⟩
termination_by structural val
/-- The same for the loop of `parseDatastreamMap`, whatever map it has built so far. -/
theorem parseDatastreamLoop_error_of_bad (timeParse : String → Except String Time)
    (entries : List (String × Any)) (path : String) (m : List (String × DatastreamValue))
    (hall : ∀ e ∈ samplesOfFields entries,
      badTimestamp timeParse e.2 = true ∨ wellTimed timeParse e.2 = true) :
    parseDatastreamLoop timeParse entries path m ≠ Result.panic ∧
      ((∃ e ∈ samplesOfFields entries, badTimestamp timeParse e.2 = true) →
        ∃ err, parseDatastreamLoop timeParse entries path m = Result.error err) := by
  match entries, hall with
  | [], _ =>
    exact ⟨by rw [parseDatastreamLoop]; exact fun hc => Result.noConfusion hc,
      by simp [samplesOfFields]⟩
  | (key, val) :: rest, hall =>
    obtain ⟨hVal, hRest⟩ := samplesOfFields_cons_mem key val rest
      (fun s => badTimestamp timeParse s = true ∨ wellTimed timeParse s = true) hall
    by_cases hobj : ∃ fields, val = Any.object fields
    · have hsub := parseDatastreamMap_error_of_bad timeParse val (path ++ "/" ++ key) hVal
      obtain ⟨fields, hf⟩ := hobj
      subst hf
      rw [parseDatastreamLoop_cons_object]
      cases hp : parseDatastreamMap timeParse (Any.object fields) (path ++ "/" ++ key) with
      | panic => exact absurd hp hsub.1
      | error err => exact ⟨fun hc => Result.noConfusion hc, fun _ => ⟨err, rfl⟩⟩
      | ok parsedMap =>
        have hr := parseDatastreamLoop_error_of_bad timeParse rest path
          (mapMerge m parsedMap) hRest
        refine ⟨hr.1, ?_⟩
        rintro ⟨e, he, hbad⟩
        simp only [samplesOfFields, List.mem_append, List.mem_map] at he
        rcases he with ⟨e0, he0, rfl⟩ | he
        · obtain ⟨err, herr⟩ := hsub.2 ⟨e0, he0, hbad⟩
          rw [hp] at herr
          exact Result.noConfusion herr
        · exact hr.2 ⟨e, he, hbad⟩
    · have hleaf : ∀ fields, val ≠ Any.object fields := fun fields hf => hobj ⟨fields, hf⟩
      have hr := parseDatastreamLoop_error_of_bad timeParse rest path m hRest
      rw [parseDatastreamLoop_cons_leaf _ _ _ _ _ _ hleaf]
      refine ⟨hr.1, ?_⟩
      rintro ⟨e, he, hbad⟩
      simp only [samplesOfFields, samplesOf_of_not_object val hleaf, List.map_nil,
        List.nil_append] at he
      exact hr.2 ⟨e, he, hbad⟩
termination_by structural entries
end

/-- C7 (as amended): for every datastream tree with at least one outermost terminal subtree
(an object with a `"value"` key reached from the root through objects that have none) whose
`timestamp` is absent, neither a native instant nor a string, or a string that does not
parse, and in which every other outermost terminal subtree is well timed,
`parseDatastreamInterface` returns an error and no mapping, however deep that subtree is
nested. -/
theorem parseDatastreamInterface_error_of_bad_timestamp
    (timeParse : String → Except String Time) (tree : List (String × Any))
    (hbad : ∃ e ∈ samplesOf (Any.object tree), badTimestamp timeParse e.2 = true)
    (hall : ∀ e ∈ samplesOf (Any.object tree),
      badTimestamp timeParse e.2 = true ∨ wellTimed timeParse e.2 = true) :
    ∃ err, parseDatastreamInterface timeParse tree = Result.error err :=
  (parseDatastreamMap_error_of_bad timeParse (Any.object tree) "" hall).2 hbad

/-- Witness of C7: a sample three levels down whose `timestamp` is a number, next to a sample
that is well timed. -/
theorem parseDatastreamInterface_error_of_bad_timestamp_witness :
    (∃ e ∈ samplesOf (Any.object
        [("ok", Any.object [("value", Any.number 1 0),
            ("timestamp", Any.str "2023-01-01T00:00:00Z"),
            ("reception_timestamp", Any.str "2023-01-01T00:00:00Z")]),
          ("a", Any.object [("b", Any.object [("c", Any.object [("value", Any.number 2 0),
            ("timestamp", Any.number 1672531200 0)])])])]),
      badTimestamp parseUTC e.2 = true) ∧
    (∀ e ∈ samplesOf (Any.object
        [("ok", Any.object [("value", Any.number 1 0),
            ("timestamp", Any.str "2023-01-01T00:00:00Z"),
            ("reception_timestamp", Any.str "2023-01-01T00:00:00Z")]),
          ("a", Any.object [("b", Any.object [("c", Any.object [("value", Any.number 2 0),
            ("timestamp", Any.number 1672531200 0)])])])]),
      badTimestamp parseUTC e.2 = true ∨ wellTimed parseUTC e.2 = true) ∧
    ∃ err, parseDatastreamInterface parseUTC
        [("ok", Any.object [("value", Any.number 1 0),
            ("timestamp", Any.str "2023-01-01T00:00:00Z"),
            ("reception_timestamp", Any.str "2023-01-01T00:00:00Z")]),
          ("a", Any.object [("b", Any.object [("c", Any.object [("value", Any.number 2 0),
            ("timestamp", Any.number 1672531200 0)])])])]
      = Result.error err :=
  ⟨by decide, by decide,
    parseDatastreamInterface_error_of_bad_timestamp parseUTC
      [("ok", Any.object [("value", Any.number 1 0),
          ("timestamp", Any.str "2023-01-01T00:00:00Z"),
          ("reception_timestamp", Any.str "2023-01-01T00:00:00Z")]),
        ("a", Any.object [("b", Any.object [("c", Any.object [("value", Any.number 2 0),
          ("timestamp", Any.number 1672531200 0)])])])]
      (by decide) (by decide)⟩

/-- C7 (counterexample to the claim as stated): the tree
`{"a": {"value": {"value": 1}, "timestamp": T, "reception_timestamp": T}}` contains the
terminal subtree `{"value": 1}`, which has no `timestamp`; it sits inside the sample `a`,
which is not descended into, and the call succeeds with the entry `/a`. -/
theorem parseDatastreamInterface_ignores_nested_bad_sample :
    mapHasKey [("value", Any.number 1 0)] "value" = true ∧
    badTimestamp parseUTC [("value", Any.number 1 0)] = true ∧
    parseDatastreamInterface parseUTC
        [("a", Any.object [("value", Any.object [("value", Any.number 1 0)]),
          ("timestamp", Any.str "2023-01-01T00:00:00Z"),
          ("reception_timestamp", Any.str "2023-01-01T00:00:00Z")])]
      = Result.ok [("/a",
          DatastreamValue.mk (Any.object [("value", Any.number 1 0)])
            (Time.mk 2023 1 1 0 0 0 0) (Time.mk 2023 1 1 0 0 0 0))] :=
  ⟨rfl, rfl, rfl⟩

/-! ## Keys of the flattened mappings -/

theorem mapKeys_mapInsert {β : Type} (m : List (String × β)) (k : String) (v : β) :
    ∀ x ∈ mapKeys (mapInsert m k v), x ∈ mapKeys m ∨ x = k := by
  induction m with
  | nil =>
    intro x hx
    simp only [mapInsert, mapKeys, List.map_cons, List.map_nil, List.mem_singleton] at hx
    exact Or.inr hx
  | cons e rest ih =>
    rcases e with ⟨k0, v0⟩
    intro x hx
    rw [mapInsert] at hx
    split_ifs at hx with hk
    · simp only [mapKeys, List.map_cons, List.mem_cons] at hx ⊢
      rcases hx with hx | hx
      · exact Or.inr hx
      · exact Or.inl (Or.inr hx)
    · simp only [mapKeys, List.map_cons, List.mem_cons] at hx ⊢
      rcases hx with hx | hx
      · exact Or.inl (Or.inl hx)
      · rcases ih x hx with h | h
        · exact Or.inl (Or.inr h)
        · exact Or.inr h

theorem mapKeys_mapMerge {β : Type} (src m : List (String × β)) :
    ∀ x ∈ mapKeys (mapMerge m src), x ∈ mapKeys m ∨ x ∈ mapKeys src := by
  induction src generalizing m with
  | nil => intro x hx; exact Or.inl hx
  | cons e rest ih =>
    rcases e with ⟨k, v⟩
    intro x hx
    have hx2 : x ∈ mapKeys (mapMerge (mapInsert m k v) rest) := hx
    rcases ih (mapInsert m k v) x hx2 with h | h
    · rcases mapKeys_mapInsert m k v x h with h | h
      · exact Or.inl h
      · exact Or.inr (by simp [mapKeys, h])
    · exact Or.inr (by
        simp only [mapKeys, List.map_cons, List.mem_cons]
        exact Or.inr h)

theorem beginsWithSlash_of_empty_prefix (rest : String) :
    beginsWithSlash ("" ++ "/" ++ rest) := by
  simp [beginsWithSlash, String.data_append]

mutual
/-- Every key that `parsePropertiesMap` returns extends the prefix by `"/"` and more. -/
theorem parsePropertiesMap_keys (val : Any) (path : String) :
    ∀ x ∈ mapKeys (parsePropertiesMap val path), ∃ rest, x = path ++ "/" ++ rest := by
  match val with
  | Any.object fields =>
    intro x hx
    rw [parsePropertiesMap] at hx
    rcases parsePropertiesLoop_keys fields path [] x hx with h | h
    · simp [mapKeys] at h
    · exact h
  | Any.null => intro x hx; simp [parsePropertiesMap, mapKeys] at hx
  | Any.bool _ => intro x hx; simp [parsePropertiesMap, mapKeys] at hx
  | Any.number _ _ => intro x hx; simp [parsePropertiesMap, mapKeys] at hx
  | Any.str _ => intro x hx; simp [parsePropertiesMap, mapKeys] at hx
  | Any.time _ => intro x hx; simp [parsePropertiesMap, mapKeys] at hx
  | Any.array _ => intro x hx; simp [parsePropertiesMap, mapKeys] at hx
termination_by structural val
/-- Every key that the loop of `parsePropertiesMap` adds extends the prefix by `"/"` and
more. -/
theorem parsePropertiesLoop_keys (entries : List (String × Any)) (path : String)
    (m : List (String × Any)) :
    ∀ x ∈ mapKeys (parsePropertiesLoop entries path m),
      x ∈ mapKeys m ∨ ∃ rest, x = path ++ "/" ++ rest := by
  match entries with
  | [] => intro x hx; rw [parsePropertiesLoop] at hx; exact Or.inl hx
  | (key, val) :: rest =>
    intro x hx
    by_cases hobj : ∃ fields, val = Any.object fields
    · have hsub := parsePropertiesMap_keys val (path ++ "/" ++ key)
      obtain ⟨fields, hf⟩ := hobj
      subst hf
      rw [parsePropertiesLoop_cons_object] at hx
      rcases parsePropertiesLoop_keys rest path _ x hx with h | h
      · rcases mapKeys_mapMerge _ _ x h with h | h
        · exact Or.inl h
        · obtain ⟨r, hr⟩ := hsub x h
          exact Or.inr ⟨key ++ "/" ++ r, by rw [hr]; simp only [String.append_assoc]⟩
      · exact Or.inr h
    · have hleaf : ∀ fields, val ≠ Any.object fields := fun fields hf => hobj ⟨fields, hf⟩
      rw [parsePropertiesLoop_cons_leaf _ _ _ _ _ hleaf] at hx
      rcases parsePropertiesLoop_keys rest path _ x hx with h | h
      · rcases mapKeys_mapInsert _ _ _ x h with h | h
        · exact Or.inl h
        · exact Or.inr ⟨key, h⟩
      · exact Or.inr h
termination_by structural entries
end

mutual
/-- Every key that `parseDatastreamMap` returns extends the prefix. -/
theorem parseDatastreamMap_keys (timeParse : String → Except String Time) (val : Any)
    (path : String) (m : List (String × DatastreamValue))
    (hm : parseDatastreamMap timeParse val path = Result.ok m) :
    ∀ x ∈ mapKeys m, ∃ rest, x = path ++ rest := by
  match val, hm with
  | Any.object fields, hm =>
    intro x hx
    by_cases hv : mapHasKey fields "value" = true
    · rw [parseDatastreamMap_of_value_key timeParse fields path hv] at hm
      cases hp : parseDatastreamValue timeParse fields with
      | ok dv =>
        rw [hp] at hm
        simp only [Result.ok.injEq] at hm
        rw [← hm] at hx
        simp only [mapKeys, List.map_cons, List.map_nil, List.mem_singleton] at hx
        exact ⟨"", by rw [hx]; simp⟩
      | error err => rw [hp] at hm; exact Result.noConfusion hm
      | panic => rw [hp] at hm; exact Result.noConfusion hm
    · rw [parseDatastreamMap, if_neg hv] at hm
      rcases parseDatastreamLoop_keys timeParse fields path [] m hm x hx with h | h
      · simp [mapKeys] at h
      · obtain ⟨r, hr⟩ := h
        exact ⟨"/" ++ r, by rw [hr]; simp only [String.append_assoc]⟩
  | Any.null, hm => cases hm; intro x hx; simp [mapKeys] at hx
  | Any.bool _, hm => cases hm; intro x hx; simp [mapKeys] at hx
  | Any.number _ _, hm => cases hm; intro x hx; simp [mapKeys] at hx
  | Any.str _, hm => cases hm; intro x hx; simp [mapKeys] at hx
  | Any.time _, hm => cases hm; intro x hx; simp [mapKeys] at hx
  | Any.array _, hm => cases hm; intro x hx; simp [mapKeys] at hx
termination_by structural val
/-- Every key that the loop of `parseDatastreamMap` adds extends the prefix by `"/"` and
more. -/
theorem parseDatastreamLoop_keys (timeParse : String → Except String Time)
    (entries : List (String × Any)) (path : String) (m0 m : List (String × DatastreamValue))
    (hm : parseDatastreamLoop timeParse entries path m0 = Result.ok m) :
    ∀ x ∈ mapKeys m, x ∈ mapKeys m0 ∨ ∃ rest, x = path ++ "/" ++ rest := by
  match entries, hm with
  | [], hm =>
    rw [parseDatastreamLoop] at hm
    simp only [Result.ok.injEq] at hm
    intro x hx
    exact Or.inl (hm ▸ hx)
  | (key, val) :: rest, hm =>
    intro x hx
    by_cases hobj : ∃ fields, val = Any.object fields
    · have hsub := parseDatastreamMap_keys timeParse val (path ++ "/" ++ key)
      obtain ⟨fields, hf⟩ := hobj
      subst hf
      rw [parseDatastreamLoop_cons_object] at hm
      cases hp : parseDatastreamMap timeParse (Any.object fields) (path ++ "/" ++ key) with
      | panic => rw [hp] at hm; exact Result.noConfusion hm
      | error err => rw [hp] at hm; exact Result.noConfusion hm
      | ok parsedMap =>
        rw [hp] at hm
        rcases parseDatastreamLoop_keys timeParse rest path _ m hm x hx with h | h
        · rcases mapKeys_mapMerge _ _ x h with h | h
          · exact Or.inl h
          · obtain ⟨r, hr⟩ := hsub parsedMap hp x h
            exact Or.inr ⟨key ++ r, by rw [hr]; simp only [String.append_assoc]⟩
        · exact Or.inr h
    · have hleaf : ∀ fields, val ≠ Any.object fields := fun fields hf => hobj ⟨fields, hf⟩
      rw [parseDatastreamLoop_cons_leaf _ _ _ _ _ _ hleaf] at hm
      exact parseDatastreamLoop_keys timeParse rest path m0 m hm x hx
termination_by structural entries
end

/-- C10 (as amended): every key in the mapping returned by `parsePropertyInterface` begins
with `"/"`; every key in the mapping returned by a successful `parseDatastreamInterface`
begins with `"/"` when the top level of the tree has no `"value"` key, and when it has one
the mapping has a single key, the empty path. -/
theorem flattened_keys_begin_with_slash (timeParse : String → Except String Time)
    (tree : List (String × Any)) :
    (∀ x ∈ mapKeys (parsePropertyInterface tree), beginsWithSlash x) ∧
    ∀ m, parseDatastreamInterface timeParse tree = Result.ok m →
      (mapHasKey tree "value" = false → ∀ x ∈ mapKeys m, beginsWithSlash x) ∧
      (mapHasKey tree "value" = true → mapKeys m = [""]) := by
  refine ⟨?_, ?_⟩
  · intro x hx
    obtain ⟨r, hr⟩ := parsePropertiesMap_keys (Any.object tree) "" x hx
    rw [hr]
    exact beginsWithSlash_of_empty_prefix r
  · intro m hm
    constructor
    · intro hv x hx
      have hv2 : ¬ mapHasKey tree "value" = true := by rw [hv]; decide
      rw [parseDatastreamInterface, parseDatastreamMap, if_neg hv2] at hm
      rcases parseDatastreamLoop_keys timeParse tree "" [] m hm x hx with h | h
      · simp [mapKeys] at h
      · obtain ⟨r, hr⟩ := h
        rw [hr]
        exact beginsWithSlash_of_empty_prefix r
    · intro hv
      rw [parseDatastreamInterface, parseDatastreamMap_of_value_key timeParse tree "" hv]
        at hm
      cases hp : parseDatastreamValue timeParse tree with
      | ok dv =>
        rw [hp] at hm
        simp only [Result.ok.injEq] at hm
        rw [← hm]
        rfl
      | error err => rw [hp] at hm; exact Result.noConfusion hm
      | panic => rw [hp] at hm; exact Result.noConfusion hm

/-- Witness of C10: the snapshot `{"temperature": S}` for a well-timed sample `S`. -/
theorem flattened_keys_begin_with_slash_witness :
    parseDatastreamInterface parseUTC
        [("temperature", Any.object [("value", Any.number 215 (-1)),
          ("timestamp", Any.str "2023-01-01T00:00:00.000000Z"),
          ("reception_timestamp", Any.str "2023-01-01T00:00:00.100000Z")])]
      = Result.ok [("/temperature",
          DatastreamValue.mk (Any.number 215 (-1)) (Time.mk 2023 1 1 0 0 0 0)
            (Time.mk 2023 1 1 0 0 0 100000000))] ∧
    mapHasKey
        [("temperature", Any.object [("value", Any.number 215 (-1)),
          ("timestamp", Any.str "2023-01-01T00:00:00.000000Z"),
          ("reception_timestamp", Any.str "2023-01-01T00:00:00.100000Z")])] "value" = false ∧
    ∀ x ∈ mapKeys [("/temperature",
          DatastreamValue.mk (Any.number 215 (-1)) (Time.mk 2023 1 1 0 0 0 0)
            (Time.mk 2023 1 1 0 0 0 100000000))], beginsWithSlash x :=
  ⟨rfl, rfl,
    ((flattened_keys_begin_with_slash parseUTC
      [("temperature", Any.object [("value", Any.number 215 (-1)),
        ("timestamp", Any.str "2023-01-01T00:00:00.000000Z"),
        ("reception_timestamp", Any.str "2023-01-01T00:00:00.100000Z")])]).2 _ rfl).1 rfl⟩

/-- C10 (counterexample to the claim as stated): a tree whose top level has a `"value"` key
flattens, successfully, to a mapping whose only key is the empty path, which does not begin
with `"/"`. -/
theorem parseDatastreamInterface_empty_path_key :
    parseDatastreamInterface parseUTC
        [("value", Any.number 1 0), ("timestamp", Any.str "2023-01-01T00:00:00Z"),
          ("reception_timestamp", Any.str "2023-01-01T00:00:00Z")]
      = Result.ok [("",
          DatastreamValue.mk (Any.number 1 0) (Time.mk 2023 1 1 0 0 0 0)
            (Time.mk 2023 1 1 0 0 0 0))] ∧
    ¬ beginsWithSlash "" :=
  ⟨rfl, by decide⟩

/-! ## The bounded fetch: errors, unbounded retrieval, slicing -/

/-- A failing `GetNextPage` call ends the loop in the same iteration, with the error of the
call and the paginator state the call left. -/
theorem getDatastreamLoop_of_fetch_error {κ ε α : Type}
    (GetNextPage : DatastreamPaginator κ → Except ε (List α) × DatastreamPaginator κ)
    (limit : Int) (fuel : Nat) (resultSet : List α) (p q : DatastreamPaginator κ) (err : ε)
    (hfetch : GetNextPage p = (Except.error err, q)) :
    getDatastreamLoop GetNextPage limit (fuel + 1) resultSet p = some (Result.error err, q) := by
  rw [getDatastreamLoop, hfetch]

/-- A page that leaves the accumulated count below a positive limit, or any page when the
limit is not positive, is appended, and the loop goes on if `HasNextPage` says so. -/
theorem getDatastreamLoop_of_fetch_more {κ ε α : Type}
    (GetNextPage : DatastreamPaginator κ → Except ε (List α) × DatastreamPaginator κ)
    (limit : Int) (fuel : Nat) (resultSet page : List α) (p q : DatastreamPaginator κ)
    (hfetch : GetNextPage p = (Except.ok page, q))
    (hbelow : limit ≤ 0 ∨ (resultSet.length : Int) + (page.length : Int) < limit) :
    getDatastreamLoop GetNextPage limit (fuel + 1) resultSet p =
      if q.HasNextPage then getDatastreamLoop GetNextPage limit fuel (resultSet ++ page) q
      else some (Result.ok (resultSet ++ page), q) := by
  rw [getDatastreamLoop, hfetch]
  simp only
  have h1 : ¬ (limit > 0 ∧ (resultSet.length : Int) + (page.length : Int) = limit) := by
    rintro ⟨h, h2⟩; omega
  have h2 : ¬ (limit > 0 ∧ (resultSet.length : Int) + (page.length : Int) > limit) := by
    rintro ⟨h, h2⟩; omega
  rw [if_neg h1, if_neg h2]

/-- Against a scripted source whose responses are the pages `pages` and then an error, a
loop that none of the pages ends returns that error with the call that meets it: the call
counter has advanced by `pages.length + 1` and the responses from the error on are still in
the script. -/
theorem getDatastreamLoop_counting_error {ε α : Type} (limit : Int) (err : ε)
    (rest : List (Except ε (List α))) :
    ∀ (pages : List (List α)) (fuel : Nat) (resultSet : List α)
      (p : DatastreamPaginator (List (Except ε (List α)) × Nat)),
      p.client.1 = pages.map Except.ok ++ Except.error err :: rest →
      pages.length < fuel →
      (limit ≤ 0 ∨ (resultSet.length : Int) + (pages.flatten.length : Int) < limit) →
      ∃ q, getDatastreamLoop (countingGetNextPage scriptedGetNextPage) limit fuel resultSet p
          = some (Result.error err, q) ∧
        q.client = (Except.error err :: rest, p.client.2 + pages.length + 1) := by
  intro pages
  induction pages with
  | nil =>
    intro fuel resultSet p hclient hfuel _
    rcases p with ⟨ws, we, nw, ps, ⟨script, c⟩, hnp, ord⟩
    simp only [List.map_nil, List.nil_append] at hclient
    subst hclient
    obtain ⟨f, rfl⟩ : ∃ f, fuel = f + 1 := ⟨fuel - 1, by simp at hfuel; omega⟩
    refine ⟨_, getDatastreamLoop_of_fetch_error _ limit f resultSet _ _ err rfl, ?_⟩
    simp
  | cons page pages ih =>
    intro fuel resultSet p hclient hfuel hbelow
    rcases p with ⟨ws, we, nw, ps, ⟨script, c⟩, hnp, ord⟩
    simp only [List.map_cons, List.cons_append] at hclient
    subst hclient
    obtain ⟨f, rfl⟩ : ∃ f, fuel = f + 1 := ⟨fuel - 1, by simp at hfuel; omega⟩
    have hlen : ((page :: pages).flatten.length : Int) =
        (page.length : Int) + (pages.flatten.length : Int) := by
      simp [List.flatten_cons, List.length_append]
    have hfetch : ∀ tail : List (Except ε (List α)),
        countingGetNextPage scriptedGetNextPage
          (DatastreamPaginator.mk ws we nw ps (Except.ok page :: tail, c) hnp ord) =
        (Except.ok page,
          DatastreamPaginator.mk ws we nw ps (tail, c + 1) (!tail.isEmpty) ord) :=
      fun _ => rfl
    have hpage : limit ≤ 0 ∨ (resultSet.length : Int) + (page.length : Int) < limit := by
      rcases hbelow with h | h
      · exact Or.inl h
      · right
        have := Int.ofNat_nonneg pages.flatten.length
        omega
    rw [getDatastreamLoop_of_fetch_more _ limit f resultSet page _ _ (hfetch _) hpage]
    have hnext : (DatastreamPaginator.mk ws we nw ps
        (pages.map Except.ok ++ Except.error err :: rest, c + 1)
        (!List.isEmpty (pages.map Except.ok ++ Except.error err :: rest)) ord).HasNextPage
          = true := by
      simp [DatastreamPaginator.HasNextPage]
    rw [if_pos hnext]
    obtain ⟨q, hq, hqc⟩ := ih f (resultSet ++ page)
      (DatastreamPaginator.mk ws we nw ps
        (pages.map Except.ok ++ Except.error err :: rest, c + 1)
        (!List.isEmpty (pages.map Except.ok ++ Except.error err :: rest)) ord)
      rfl (by simp at hfuel; omega)
      (by rcases hbelow with h | h
          · exact Or.inl h
          · right; rw [List.length_append]; push_cast; omega)
    refine ⟨q, hq, ?_⟩
    rw [hqc]
    simp only [List.length_cons]
    congr 1
    omega

/-- C11: a failing `GetNextPage` call makes `getDatastreamInternal` return the error of that
call, unchanged and without the samples accumulated so far, and no further `GetNextPage`
call is made.  First part, for any paginator and at any iteration: the loop returns in the
iteration of the failing call, whatever it has accumulated, and the paginator is left as
that call left it.  Second part, for a whole run counted call by call: when the source
delivers the pages `pages` (none of which ends the loop) and then fails, the call returns
that error after exactly `pages.length + 1` calls, and the responses from the failing one on
are still unserved. -/
theorem getDatastreamInternal_returns_fetch_error {ε α : Type} (limit : Int) :
    (∀ (κ : Type)
        (GetNextPage : DatastreamPaginator κ → Except ε (List α) × DatastreamPaginator κ)
        (fuel : Nat) (resultSet : List α) (p q : DatastreamPaginator κ) (err : ε),
        GetNextPage p = (Except.error err, q) →
          getDatastreamLoop GetNextPage limit (fuel + 1) resultSet p
            = some (Result.error err, q)) ∧
    (∀ (pages : List (List α)) (err : ε) (rest : List (Except ε (List α))) (fuel : Nat)
        (since toTime : Time) (order : ResultSetOrder),
        pages.length < fuel →
        (limit ≤ 0 ∨ (pages.flatten.length : Int) < limit) →
        ∃ q, getDatastreamInternal (countingGetNextPage scriptedGetNextPage) fuel
            (AppEngineService.mk (pages.map Except.ok ++ Except.error err :: rest, 0))
            since toTime limit order = some (Result.error err, q) ∧
          q.client = (Except.error err :: rest, pages.length + 1)) := by
  constructor
  · intro κ GetNextPage fuel resultSet p q err hfetch
    exact getDatastreamLoop_of_fetch_error GetNextPage limit fuel resultSet p q err hfetch
  · intro pages err rest fuel since toTime order hfuel hbelow
    obtain ⟨q, hq, hqc⟩ := getDatastreamLoop_counting_error limit err rest pages fuel []
      (getDatastreamInternalPaginator
        (AppEngineService.mk (pages.map Except.ok ++ Except.error err :: rest, 0))
        since toTime limit order)
      rfl hfuel (by simpa using hbelow)
    refine ⟨q, hq, ?_⟩
    rw [hqc]
    simp [getDatastreamInternalPaginator, getDatastreamPaginatorInternal]

/-- Witness of C11: two pages, then a failure, then a page that is never asked for. -/
theorem getDatastreamInternal_returns_fetch_error_witness :
    ([[1, 2, 3], [4, 5, 6]] : List (List Nat)).length < 3 ∧
    ((0 : Int) ≤ 0 ∨ ((([[1, 2, 3], [4, 5, 6]] : List (List Nat)).flatten.length : Int) < 0)) ∧
    ∃ q, getDatastreamInternal (countingGetNextPage scriptedGetNextPage) 3
        (AppEngineService.mk
          (([[1, 2, 3], [4, 5, 6]] : List (List Nat)).map Except.ok ++
            Except.error "503" :: [Except.ok [7, 8, 9]], 0))
        invalidTime invalidTime 0 ResultSetOrder.DescendingOrder
          = some (Result.error "503", q) ∧
      q.client = (Except.error "503" :: [Except.ok [7, 8, 9]], 2 + 1) :=
  ⟨by decide, Or.inl (le_refl 0),
    (getDatastreamInternal_returns_fetch_error 0).2 [[1, 2, 3], [4, 5, 6]] "503"
      [Except.ok [7, 8, 9]] 3 invalidTime invalidTime ResultSetOrder.DescendingOrder
      (by decide) (Or.inl (le_refl 0))⟩

/-- With a limit that is not positive the loop appends every page it fetches and stops
after the first page that leaves `HasNextPage` false. -/
theorem getDatastreamLoop_fetchesAll {κ ε α : Type}
    (GetNextPage : DatastreamPaginator κ → Except ε (List α) × DatastreamPaginator κ)
    (limit : Int) (hlimit : limit ≤ 0) (p q : DatastreamPaginator κ) (pages : List (List α))
    (hpages : FetchesAll GetNextPage p pages q) :
    ∀ (fuel : Nat) (resultSet : List α), pages.length ≤ fuel →
      getDatastreamLoop GetNextPage limit fuel resultSet p =
        some (Result.ok (resultSet ++ pages.flatten), q) := by
  induction hpages with
  | last p q page hfetch hdone =>
    intro fuel resultSet hfuel
    obtain ⟨f, rfl⟩ : ∃ f, fuel = f + 1 := ⟨fuel - 1, by simp at hfuel; omega⟩
    rw [getDatastreamLoop_of_fetch_more GetNextPage limit f resultSet page p q hfetch
      (Or.inl hlimit), hdone]
    simp
  | more p p1 q page pages hfetch hmore _ ih =>
    intro fuel resultSet hfuel
    obtain ⟨f, rfl⟩ : ∃ f, fuel = f + 1 := ⟨fuel - 1, by simp at hfuel; omega⟩
    rw [getDatastreamLoop_of_fetch_more GetNextPage limit f resultSet page p p1 hfetch
      (Or.inl hlimit), hmore, if_pos rfl, ih f (resultSet ++ page)
        (by simp at hfuel; omega)]
    simp

/-- A scripted source with at least one page to deliver delivers all its pages. -/
theorem scripted_fetchesAll {ε α : Type} (pages : List (List α)) :
    ∀ (page : List α) (p : DatastreamPaginator (List (Except ε (List α)))),
      p.client = (page :: pages).map Except.ok →
      ∃ q, FetchesAll scriptedGetNextPage p (page :: pages) q := by
  induction pages with
  | nil =>
    intro page p hclient
    rcases p with ⟨ws, we, nw, ps, script, hnp, ord⟩
    simp only [List.map_cons, List.map_nil] at hclient
    subst hclient
    exact ⟨_, FetchesAll.last _ _ page rfl rfl⟩
  | cons page2 pages ih =>
    intro page p hclient
    rcases p with ⟨ws, we, nw, ps, script, hnp, ord⟩
    simp only [List.map_cons] at hclient
    subst hclient
    obtain ⟨q, hq⟩ := ih page2
      (DatastreamPaginator.mk ws we nw ps (Except.ok page2 :: pages.map Except.ok)
        (!List.isEmpty (Except.ok page2 :: pages.map Except.ok :
          List (Except ε (List α)))) ord) rfl
    exact ⟨q, FetchesAll.more _ _ q page (page2 :: pages) rfl rfl hq⟩

/-- C12: for every limit that is not positive and every sequence of pages that the
paginator delivers without error, `getDatastreamInternal` returns all the samples: the
concatenation, in fetch order, of every page fetched up to and including the first one after
which `HasNextPage` is false, nothing truncated.  First part: for any paginator.  Second
part: against a page source that delivers the pages `pages`, the call returns their
concatenation. -/
theorem getDatastreamInternal_returns_all {α : Type} (limit : Int) (hlimit : limit ≤ 0) :
    (∀ (κ ε : Type)
        (GetNextPage : DatastreamPaginator κ → Except ε (List α) × DatastreamPaginator κ)
        (s : AppEngineService κ) (since toTime : Time) (order : ResultSetOrder)
        (pages : List (List α)) (q : DatastreamPaginator κ) (fuel : Nat),
        FetchesAll GetNextPage (getDatastreamInternalPaginator s since toTime limit order)
          pages q →
        pages.length ≤ fuel →
        getDatastreamInternal GetNextPage fuel s since toTime limit order
          = some (Result.ok pages.flatten, q)) ∧
    (∀ pages : List (List α), lastDatastreamsOf limit pages = some (Result.ok pages.flatten)) := by
  constructor
  · intro κ ε GetNextPage s since toTime order pages q fuel hpages hfuel
    have := getDatastreamLoop_fetchesAll GetNextPage limit hlimit _ q pages hpages fuel []
      hfuel
    simpa [getDatastreamInternal] using this
  · intro pages
    cases pages with
    | nil =>
      have hstep := getDatastreamLoop_of_fetch_more
        (scriptedGetNextPage : DatastreamPaginator (List (Except String (List α))) → _)
        limit 0 [] []
        (getDatastreamInternalPaginator (pageSource ([] : List (List α))) invalidTime
          invalidTime limit ResultSetOrder.DescendingOrder)
        _ rfl (Or.inl hlimit)
      simp only [lastDatastreamsOf, GetLastDatastreams, getDatastreamInternal,
        List.length_nil, Nat.zero_add]
      rw [hstep]
      rfl
    | cons page pages =>
      obtain ⟨q, hq⟩ := scripted_fetchesAll pages page
        (getDatastreamInternalPaginator (pageSource (page :: pages)) invalidTime
          invalidTime limit ResultSetOrder.DescendingOrder)
        (by simp [getDatastreamInternalPaginator, getDatastreamPaginatorInternal, pageSource])
      have := getDatastreamLoop_fetchesAll scriptedGetNextPage limit hlimit _ q
        (page :: pages) hq ((page :: pages).length + 1) [] (Nat.le_succ _)
      simp only [lastDatastreamsOf, GetLastDatastreams, getDatastreamInternal]
      rw [this]
      rfl

/-- Witness of C12: limit 0 against three pages. -/
theorem getDatastreamInternal_returns_all_witness :
    (0 : Int) ≤ 0 ∧
    lastDatastreamsOf 0 [[1, 2, 3], [4, 5, 6], [7]]
      = some (Result.ok [1, 2, 3, 4, 5, 6, 7]) :=
  ⟨le_refl 0, (getDatastreamInternal_returns_all 0 (le_refl 0)).2 [[1, 2, 3], [4, 5, 6], [7]]⟩

/-- Under the invariant of the loop (the accumulated result is strictly shorter than a
positive limit; nothing is asked of a limit that is not positive) the loop does not panic. -/
theorem getDatastreamLoop_ne_panic {κ ε α : Type}
    (GetNextPage : DatastreamPaginator κ → Except ε (List α) × DatastreamPaginator κ)
    (limit : Int) :
    ∀ (fuel : Nat) (resultSet : List α) (p q : DatastreamPaginator κ),
      (limit ≤ 0 ∨ (resultSet.length : Int) < limit) →
      getDatastreamLoop GetNextPage limit fuel resultSet p ≠ some (Result.panic, q) := by
  intro fuel
  induction fuel with
  | zero => intro resultSet p q _ h; simp [getDatastreamLoop] at h
  | succ fuel ih =>
    intro resultSet p q hinv h
    unfold getDatastreamLoop at h
    rcases hfetch : GetNextPage p with ⟨r, p1⟩
    rw [hfetch] at h
    cases r with
    | error err => simp at h
    | ok page =>
      simp only at h
      split_ifs at h with h1 h2 h3
      · simp at h
      · have hin : 0 ≤ limit - (resultSet.length : Int) - 1 ∧
            limit - (resultSet.length : Int) - 1 ≤ (page.length : Int) := by omega
        simp only [sliceTo, if_pos hin] at h
        simp at h
      · refine ih (resultSet ++ page) p1 q ?_ h
        rcases hinv with hle | hlt
        · exact Or.inl hle
        · right
          rw [List.length_append]
          push_cast
          omega
      · simp at h

/-- C13: the truncating slice `page[0:missingSamples-1]` never goes out of range.  First
part: when the accumulated result is strictly shorter than the limit and the page takes the
count past the limit, `0 ≤ missingSamples-1 ≤ len(page)` and the slice is taken.  Second
part: the loop keeps the accumulated result strictly shorter than a positive limit before
each fetch, so it never panics.  Third part: `getDatastreamInternal` never panics, for any
limit, paginator and number of iterations. -/
theorem getDatastreamInternal_slice_in_range {α : Type} (limit : Int) :
    (∀ (resultSet page : List α), (resultSet.length : Int) < limit →
        (resultSet.length : Int) + (page.length : Int) > limit →
        0 ≤ limit - (resultSet.length : Int) - 1 ∧
        limit - (resultSet.length : Int) - 1 ≤ (page.length : Int) ∧
        sliceTo page (limit - (resultSet.length : Int) - 1) =
          some (page.take (limit - (resultSet.length : Int) - 1).toNat)) ∧
    (∀ (κ ε : Type)
        (GetNextPage : DatastreamPaginator κ → Except ε (List α) × DatastreamPaginator κ)
        (fuel : Nat) (resultSet : List α) (p q : DatastreamPaginator κ),
        0 < limit → (resultSet.length : Int) < limit →
        getDatastreamLoop GetNextPage limit fuel resultSet p ≠ some (Result.panic, q)) ∧
    (∀ (κ ε : Type)
        (GetNextPage : DatastreamPaginator κ → Except ε (List α) × DatastreamPaginator κ)
        (fuel : Nat) (s : AppEngineService κ) (since toTime : Time) (order : ResultSetOrder)
        (q : DatastreamPaginator κ),
        getDatastreamInternal GetNextPage fuel s since toTime limit order
          ≠ some (Result.panic, q)) := by
  refine ⟨?_, ?_, ?_⟩
  · intro resultSet page hlt hgt
    have hin : 0 ≤ limit - (resultSet.length : Int) - 1 ∧
        limit - (resultSet.length : Int) - 1 ≤ (page.length : Int) := by omega
    exact ⟨hin.1, hin.2, by simp only [sliceTo, if_pos hin]⟩
  · intro κ ε GetNextPage fuel resultSet p q _ hlt
    exact getDatastreamLoop_ne_panic GetNextPage limit fuel resultSet p q (Or.inr hlt)
  · intro κ ε GetNextPage fuel s since toTime order q
    apply getDatastreamLoop_ne_panic GetNextPage limit fuel [] _ q
    by_cases h : limit ≤ 0
    · exact Or.inl h
    · right
      simp only [List.length_nil, Nat.cast_zero]
      omega

/-- Witness of C13: limit 5, three samples accumulated, a page of three. -/
theorem getDatastreamInternal_slice_in_range_witness :
    ((([1, 2, 3] : List Nat).length : Int) < 5) ∧
    ((([1, 2, 3] : List Nat).length : Int) + (([4, 5, 6] : List Nat).length : Int) > 5) ∧
    (0 : Int) ≤ 5 - (([1, 2, 3] : List Nat).length : Int) - 1 ∧
    (5 : Int) - (([1, 2, 3] : List Nat).length : Int) - 1 ≤ (([4, 5, 6] : List Nat).length : Int) ∧
    sliceTo ([4, 5, 6] : List Nat) (5 - (([1, 2, 3] : List Nat).length : Int) - 1) =
      some ([4, 5, 6].take (5 - (([1, 2, 3] : List Nat).length : Int) - 1).toNat) :=
  ⟨by decide, by decide,
    (getDatastreamInternal_slice_in_range 5).1 [1, 2, 3] [4, 5, 6] (by decide) (by decide)⟩

/-! ## The keys of a flattened datastream snapshot -/

theorem mapKeys_mapInsert_iff {β : Type} (m : List (String × β)) (k : String) (v : β)
    (x : String) : x ∈ mapKeys (mapInsert m k v) ↔ x ∈ mapKeys m ∨ x = k := by
  constructor
  · exact mapKeys_mapInsert m k v x
  · induction m with
    | nil =>
      intro h
      rcases h with h | h
      · simp [mapKeys] at h
      · simp [mapInsert, mapKeys, h]
    | cons e rest ih =>
      rcases e with ⟨k0, v0⟩
      intro h
      rw [mapInsert]
      split_ifs with hk
      · simp only [mapKeys, List.map_cons, List.mem_cons] at h ⊢
        rcases h with (h | h) | h
        · exact Or.inl (by rw [h, hk])
        · exact Or.inr h
        · exact Or.inl h
      · simp only [mapKeys, List.map_cons, List.mem_cons] at h ⊢
        rcases h with (h | h) | h
        · exact Or.inl h
        · exact Or.inr (ih (Or.inl h))
        · exact Or.inr (ih (Or.inr h))

theorem mapKeys_mapMerge_iff {β : Type} (src m : List (String × β)) (x : String) :
    x ∈ mapKeys (mapMerge m src) ↔ x ∈ mapKeys m ∨ x ∈ mapKeys src := by
  induction src generalizing m with
  | nil => simp [mapMerge, mapKeys]
  | cons e rest ih =>
    rcases e with ⟨k, v⟩
    have hstep : mapMerge m ((k, v) :: rest) = mapMerge (mapInsert m k v) rest := rfl
    rw [hstep, ih (mapInsert m k v), mapKeys_mapInsert_iff]
    simp only [mapKeys, List.map_cons, List.mem_cons]
    tauto

mutual
/-- The keys of the mapping that `parseDatastreamMap` returns are the paths of the terminal
samples below the value, under the prefix. -/
theorem parseDatastreamMap_keys_iff (timeParse : String → Except String Time) (val : Any)
    (path : String) (m : List (String × DatastreamValue))
    (hm : parseDatastreamMap timeParse val path = Result.ok m) (x : String) :
    x ∈ mapKeys m ↔ ∃ e ∈ samplesOf val, x = pathFrom path e.1 := by
  match val, hm with
  | Any.object fields, hm =>
    by_cases hv : mapHasKey fields "value" = true
    · have hs : samplesOf (Any.object fields) = [([], fields)] := by
        rw [samplesOf, if_pos hv]
      rw [parseDatastreamMap_of_value_key timeParse fields path hv] at hm
      cases hp : parseDatastreamValue timeParse fields with
      | ok dv =>
        rw [hp] at hm
        simp only [Result.ok.injEq] at hm
        rw [← hm, hs]
        simp [mapKeys, pathFrom]
      | error err => rw [hp] at hm; exact Result.noConfusion hm
      | panic => rw [hp] at hm; exact Result.noConfusion hm
    · have hs : samplesOf (Any.object fields) = samplesOfFields fields := by
        rw [samplesOf, if_neg hv]
      rw [parseDatastreamMap, if_neg hv] at hm
      rw [parseDatastreamLoop_keys_iff timeParse fields path [] m hm x, hs]
      simp [mapKeys]
  | Any.null, hm => cases hm; simp [mapKeys, samplesOf]
  | Any.bool _, hm => cases hm; simp [mapKeys, samplesOf]
  | Any.number _ _, hm => cases hm; simp [mapKeys, samplesOf]
  | Any.str _, hm => cases hm; simp [mapKeys, samplesOf]
  | Any.time _, hm => cases hm; simp [mapKeys, samplesOf]
  | Any.array _, hm => cases hm; simp [mapKeys, samplesOf]
termination_by structural val
/-- The keys that the loop of `parseDatastreamMap` adds are the paths of the terminal
samples below the fields it visits. -/
theorem parseDatastreamLoop_keys_iff (timeParse : String → Except String Time)
    (entries : List (String × Any)) (path : String) (m0 m : List (String × DatastreamValue))
    (hm : parseDatastreamLoop timeParse entries path m0 = Result.ok m) (x : String) :
    x ∈ mapKeys m ↔
      x ∈ mapKeys m0 ∨ ∃ e ∈ samplesOfFields entries, x = pathFrom path e.1 := by
  match entries, hm with
  | [], hm =>
    rw [parseDatastreamLoop] at hm
    simp only [Result.ok.injEq] at hm
    rw [← hm]
    simp [samplesOfFields]
  | (key, val) :: rest, hm =>
    by_cases hobj : ∃ fields, val = Any.object fields
    · have hsub := parseDatastreamMap_keys_iff timeParse val (path ++ "/" ++ key)
      obtain ⟨fields, hf⟩ := hobj
      subst hf
      rw [parseDatastreamLoop_cons_object] at hm
      cases hp : parseDatastreamMap timeParse (Any.object fields) (path ++ "/" ++ key) with
      | panic => rw [hp] at hm; exact Result.noConfusion hm
      | error err => rw [hp] at hm; exact Result.noConfusion hm
      | ok parsedMap =>
        rw [hp] at hm
        rw [parseDatastreamLoop_keys_iff timeParse rest path _ m hm x,
          mapKeys_mapMerge_iff, hsub parsedMap hp x]
        simp only [samplesOfFields, List.mem_append, List.mem_map]
        constructor
        · rintro ((h | ⟨e, he, hx⟩) | ⟨e, he, hx⟩)
          · exact Or.inl h
          · exact Or.inr ⟨(key :: e.1, e.2), Or.inl ⟨e, he, rfl⟩, hx⟩
          · exact Or.inr ⟨e, Or.inr he, hx⟩
        · rintro (h | ⟨e, ⟨e0, he0, rfl⟩ | he, hx⟩)
          · exact Or.inl (Or.inl h)
          · exact Or.inl (Or.inr ⟨e0, he0, hx⟩)
          · exact Or.inr ⟨e, he, hx⟩
    · have hleaf : ∀ fields, val ≠ Any.object fields := fun fields hf => hobj ⟨fields, hf⟩
      rw [parseDatastreamLoop_cons_leaf _ _ _ _ _ _ hleaf] at hm
      rw [parseDatastreamLoop_keys_iff timeParse rest path m0 m hm x]
      simp [samplesOfFields, samplesOf_of_not_object val hleaf]
termination_by structural entries
end

mutual
/-- When every terminal sample below a value is well timed, `parseDatastreamMap` returns a
mapping. -/
theorem parseDatastreamMap_ok_of_wellTimed (timeParse : String → Except String Time)
    (val : Any) (path : String)
    (hwell : ∀ e ∈ samplesOf val, wellTimed timeParse e.2 = true) :
    ∃ m, parseDatastreamMap timeParse val path = Result.ok m := by
  match val, hwell with
  | Any.object fields, hwell =>
    by_cases hv : mapHasKey fields "value" = true
    · have hs : samplesOf (Any.object fields) = [([], fields)] := by
        rw [samplesOf, if_pos hv]
      have hw : wellTimed timeParse fields = true :=
        hwell ([], fields) (by rw [hs]; exact List.mem_singleton_self _)
      rw [parseDatastreamMap_of_value_key timeParse fields path hv,
        parseDatastreamValue_of_wellTimed timeParse fields hw]
      exact ⟨_, rfl⟩
    · have hs : samplesOf (Any.object fields) = samplesOfFields fields := by
        rw [samplesOf, if_neg hv]
      rw [parseDatastreamMap, if_neg hv]
      exact parseDatastreamLoop_ok_of_wellTimed timeParse fields path []
        (by intro e he; exact hwell e (by rw [hs]; exact he))
  | Any.null, _ => exact ⟨[], rfl⟩
  | Any.bool _, _ => exact ⟨[], rfl⟩
  | Any.number _ _, _ => exact ⟨[], rfl⟩
  | Any.str _, _ => exact ⟨[], rfl⟩
  | Any.time _, _ => exact ⟨[], rfl⟩
  | Any.array _, _ => exact ⟨[], rfl⟩
termination_by structural val
/-- The same for the loop of `parseDatastreamMap`. -/
theorem parseDatastreamLoop_ok_of_wellTimed (timeParse : String → Except String Time)
    (entries : List (String × Any)) (path : String) (m0 : List (String × DatastreamValue))
    (hwell : ∀ e ∈ samplesOfFields entries, wellTimed timeParse e.2 = true) :
    ∃ m, parseDatastreamLoop timeParse entries path m0 = Result.ok m := by
  match entries, hwell with
  | [], _ => exact ⟨m0, by rw [parseDatastreamLoop]⟩
  | (key, val) :: rest, hwell =>
    obtain ⟨hwVal, hwRest⟩ := samplesOfFields_cons_mem key val rest
      (fun s => wellTimed timeParse s = true) hwell
    by_cases hobj : ∃ fields, val = Any.object fields
    · obtain ⟨pm, hpm⟩ := parseDatastreamMap_ok_of_wellTimed timeParse val
        (path ++ "/" ++ key) hwVal
      obtain ⟨fields, hf⟩ := hobj
      subst hf
      rw [parseDatastreamLoop_cons_object, hpm]
      exact parseDatastreamLoop_ok_of_wellTimed timeParse rest path _ hwRest
    · have hleaf : ∀ fields, val ≠ Any.object fields := fun fields hf => hobj ⟨fields, hf⟩
      rw [parseDatastreamLoop_cons_leaf _ _ _ _ _ _ hleaf]
      exact parseDatastreamLoop_ok_of_wellTimed timeParse rest path m0 hwRest
termination_by structural entries
end

/-- C14: `parseDatastreamMap` drops every value that is not an object and sits in an object
without a `"value"` key: the keys of the mapping that `parseDatastreamInterface` returns are
exactly the flattened paths of the outermost objects that have a `"value"` key.  A mapping
is returned whenever these objects are well timed; in particular a tree without such an
object (a tree of scalars, the empty tree) yields the empty mapping and no error. -/
theorem parseDatastreamInterface_keys_are_sample_paths
    (timeParse : String → Except String Time) (tree : List (String × Any)) :
    (∀ m, parseDatastreamInterface timeParse tree = Result.ok m →
      ∀ x, x ∈ mapKeys m ↔ ∃ e ∈ samplesOf (Any.object tree), x = pathFrom "" e.1) ∧
    ((∀ e ∈ samplesOf (Any.object tree), wellTimed timeParse e.2 = true) →
      ∃ m, parseDatastreamInterface timeParse tree = Result.ok m) ∧
    (samplesOf (Any.object tree) = [] →
      parseDatastreamInterface timeParse tree = Result.ok []) := by
  refine ⟨?_, ?_, ?_⟩
  · intro m hm x
    exact parseDatastreamMap_keys_iff timeParse (Any.object tree) "" m hm x
  · intro hwell
    exact parseDatastreamMap_ok_of_wellTimed timeParse (Any.object tree) "" hwell
  · intro hnone
    obtain ⟨m, hm⟩ := parseDatastreamMap_ok_of_wellTimed timeParse (Any.object tree) ""
      (by rw [hnone]; intro e he; simp at he)
    have hkeys := parseDatastreamMap_keys_iff timeParse (Any.object tree) "" m hm
    rw [hnone] at hkeys
    have hm0 : m = [] := by
      cases m with
      | nil => rfl
      | cons e rest =>
        have := (hkeys e.1).1 (by simp [mapKeys])
        simp at this
    rw [parseDatastreamInterface, hm, hm0]

/-- Witness of C14: a properties-shaped tree, with scalars, an array that holds an object
with a `"value"` key, and an empty object, has no terminal sample and flattens to the empty
mapping. -/
theorem parseDatastreamInterface_keys_are_sample_paths_witness :
    samplesOf (Any.object
        [("a", Any.number 1 0),
          ("b", Any.object [("c", Any.str "x"),
            ("d", Any.array [Any.object [("value", Any.number 1 0)]]),
            ("e", Any.object [])])]) = [] ∧
    parseDatastreamInterface parseUTC
        [("a", Any.number 1 0),
          ("b", Any.object [("c", Any.str "x"),
            ("d", Any.array [Any.object [("value", Any.number 1 0)]]),
            ("e", Any.object [])])] = Result.ok [] :=
  ⟨rfl,
    (parseDatastreamInterface_keys_are_sample_paths parseUTC
      [("a", Any.number 1 0),
        ("b", Any.object [("c", Any.str "x"),
          ("d", Any.array [Any.object [("value", Any.number 1 0)]]),
          ("e", Any.object [])])]).2.2 rfl⟩

end Astartectl
